import Mathlib

/-!
Verification of the `bnum` big-integer kernel (fixed-width multi-digit
unsigned/signed arithmetic).

The repository stores a `BUint<N>` as `[Digit; N]` with `Digit = u64`
(`src/types.rs` instantiates widths as `BUint::<{bits / 64}>`), digits little
endian.  We embed a digit array as a `List Nat` whose entries are the digits
(least significant first), with the invariant `valid l : ∀ d ∈ l, d < 2^64`.
`natVal` is the represented value `Σ dᵢ · 2^(64 i)`.

`ExpType` (the shift-amount type) is embedded as `Nat`; every modelled
operation only consumes the shift amount through `>>> 6` / `&&& 63` /
`&&& (BITS-1)` exactly as the source does, so the embedding is faithful on
the whole `u32` range of the source type and beyond.

Functions that appear with identical bodies in `src/uint/mod.rs` and
`src/buint/mod.rs` (`count_ones`, `leading_zeros`, `trailing_zeros`,
`is_zero`, `is_power_of_two`, `last_digit_index`, `bits`, `bit`,
`power_of_two`, `swap_bytes`, `reverse_bits`) are defined once at top level;
the operations whose two versions differ live in namespaces `uint` and
`buint` named after their file.
-/

/-! ### Single-digit (u64) helpers

The u64 primitives used by the source (`count_ones`, `leading_zeros`,
`trailing_zeros`, `swap_bytes`, `reverse_bits`) are modelled with
fuel-64 structural recursions so that they evaluate by kernel reduction. -/

/-- Fuel-driven bit length: `blAux f n` is the bit length of `n` provided
`n < 2^f`. -/
def blAux : Nat → Nat → Nat
  | 0, _ => 0
  | f + 1, n => if n = 0 then 0 else blAux f (n / 2) + 1

/-- Bit length of a `u64` value (`0` for `0`, otherwise `log2 + 1`). -/
def bitLen (d : Nat) : Nat := blAux 64 d

/-- `u64::leading_zeros`. -/
def u64lz (d : Nat) : Nat := 64 - bitLen d

/-- Fuel-driven population count. -/
def pcAux : Nat → Nat → Nat
  | 0, _ => 0
  | f + 1, n => if n = 0 then 0 else n % 2 + pcAux f (n / 2)

/-- `u64::count_ones`. -/
def u64popcount (d : Nat) : Nat := pcAux 64 d

/-- Fuel-driven count of trailing zero bits; fuel exhaustion on `0` yields the
fuel itself, so `tzAux 64 0 = 64` as for `u64::trailing_zeros`. -/
def tzAux : Nat → Nat → Nat
  | 0, _ => 0
  | f + 1, n => if n % 2 = 1 then 0 else tzAux f (n / 2) + 1

/-- `u64::trailing_zeros`. -/
def u64tz (d : Nat) : Nat := tzAux 64 d

/-- `digRev b f d` reverses the `f` low base-`b` digits of `d`:
digit `i` of the input becomes digit `f-1-i` of the output. -/
def digRev (b : Nat) : Nat → Nat → Nat
  | 0, _ => 0
  | f + 1, d => d % b * b ^ f + digRev b f (d / b)

/-- `u64::reverse_bits`: the 64 bits reversed. -/
def u64reverse_bits (d : Nat) : Nat := digRev 2 64 d

/-- `u64::swap_bytes`: the 8 bytes reversed. -/
def u64swap_bytes (d : Nat) : Nat := digRev 256 8 d

/-! ### Digit arrays -/

/-- Digit-array invariant: every digit fits in a `u64`. -/
def valid (l : List Nat) : Prop := ∀ d ∈ l, d < 2 ^ 64

instance decValid (l : List Nat) : Decidable (valid l) :=
  List.decidableBAll _ l

/-- The value represented by a little-endian digit array. -/
def natVal : List Nat → Nat
  | [] => 0
  | d :: r => d + 2 ^ 64 * natVal r

/-- `fromNat n v`: the `n`-digit little-endian array of `v % 2^(64 n)`. -/
def fromNat : Nat → Nat → List Nat
  | 0, _ => []
  | n + 1, v => v % 2 ^ 64 :: fromNat n (v / 2 ^ 64)

/-! ### Operations with identical bodies in `src/uint/mod.rs` and
`src/buint/mod.rs` -/

/-- `BUint::count_ones`: sum of per-digit popcounts. -/
def count_ones : List Nat → Nat
  | [] => 0
  | d :: r => u64popcount d + count_ones r

/-- Scan producing `leading_zeros` over a digit list given most significant
digit first: add each digit's `leading_zeros` and stop at the first nonzero
digit. -/
def lzRun : List Nat → Nat
  | [] => 0
  | d :: r => if d = 0 then 64 + lzRun r else u64lz d

/-- `BUint::leading_zeros`: scans digits from the most significant end. -/
def leading_zeros (l : List Nat) : Nat := lzRun l.reverse

/-- `BUint::trailing_zeros`: scans digits from the least significant end,
adding each digit's `trailing_zeros` and stopping at the first nonzero
digit. -/
def trailing_zeros : List Nat → Nat
  | [] => 0
  | d :: r => if d = 0 then 64 + trailing_zeros r else u64tz d

/-- `BUint::bits` = `BITS - leading_zeros`. -/
def bits (l : List Nat) : Nat := 64 * l.length - leading_zeros l

/-- `BUint::bit`: extracts digit `index >> 6` and tests bit `index & 63`. -/
def bit (l : List Nat) (index : Nat) : Bool :=
  l.getD (index >>> 6) 0 &&& (1 <<< (index &&& 63)) != 0

/-- `BUint::power_of_two`: a zeroed array with digit `power >> 6` set to
`1 << (power & 63)`. -/
def power_of_two (n power : Nat) : List Nat :=
  (List.replicate n 0).set (power >>> 6) (1 <<< (power &&& 63))

/-- `BUint::is_zero`: all digits are zero (early exit at the first nonzero
digit). -/
def is_zero : List Nat → Bool
  | [] => true
  | d :: r => if d ≠ 0 then false else is_zero r

/-- Accumulating loop of `BUint::is_power_of_two`: add per-digit popcounts,
returning `false` as soon as the running total exceeds 1. -/
def ipotAux (ones : Nat) : List Nat → Bool
  | [] => ones == 1
  | d :: r =>
    let o := ones + u64popcount d
    if o > 1 then false else ipotAux o r

/-- `BUint::is_power_of_two`: exactly one set bit across all digits. -/
def is_power_of_two (l : List Nat) : Bool := ipotAux 0 l

/-- Loop of `BUint::last_digit_index`: `i` is the position of the head of the
remaining list, `idx` the index of the last nonzero digit seen so far. -/
def ldiAux (i idx : Nat) : List Nat → Nat
  | [] => idx
  | d :: r => ldiAux (i + 1) (if d ≠ 0 then i else idx) r

/-- `BUint::last_digit_index`: index of the most significant nonzero digit
(`0` if none beyond position 0); the source loop starts at digit 1. -/
def last_digit_index (l : List Nat) : Nat := ldiAux 1 0 (l.drop 1)

/-- `BUint::swap_bytes`: digit `i` of the result is digit `N-1-i` of the
input with its bytes swapped. -/
def swap_bytes (l : List Nat) : List Nat := l.reverse.map u64swap_bytes

/-- `BUint::reverse_bits`: digit `i` of the result is digit `N-1-i` of the
input with its bits reversed. -/
def reverse_bits (l : List Nat) : List Nat := l.reverse.map u64reverse_bits

/-! ### The sub-digit shift loops -/

/-- The sub-digit left-shift loop shared by `unchecked_shl` and
`unchecked_rotate_left` in `src/buint/mod.rs`: each digit becomes
`(d << s) | carry` with new carry `d >> (64 - s)`; returns the rewritten
digits and the final carry out of the most significant digit. -/
def shlLoop (s carry : Nat) : List Nat → List Nat × Nat
  | [] => ([], carry)
  | d :: r =>
    let nd := (d <<< s) % 2 ^ 64 ||| carry
    let p := shlLoop s (d >>> (64 - s)) r
    (nd :: p.1, p.2)

/-- The sub-digit right-shift loop of `unchecked_shr` in `src/uint/mod.rs`,
processed from the most significant digit downwards: each digit becomes
`(d >> s) | borrow` with new borrow `d << (64 - s)`; the borrow into the top
digit is `0` and the second component is the borrow out of the least
significant digit (discarded by the caller). -/
def shrLoop (s : Nat) : List Nat → List Nat × Nat
  | [] => ([], 0)
  | d :: r =>
    let p := shrLoop s r
    ((d >>> s ||| p.2) :: p.1, (d <<< (64 - s)) % 2 ^ 64)

/-- OR a carry into the least significant digit (`out.digits[0] |= carry`). -/
def orHead (c : Nat) : List Nat → List Nat
  | [] => []
  | d :: r => (d ||| c) :: r

namespace buint

/-- `unchecked_shl` from `src/buint/mod.rs`: move digits up by `rhs >> 6`
positions, then run the sub-digit carry loop with shift `rhs & 63` over the
moved digits; the final carry is discarded. -/
def unchecked_shl (u : List Nat) (rhs : Nat) : List Nat :=
  let digit_shift := rhs >>> 6
  let bit_shift := rhs &&& 63
  let copied := u.take (u.length - digit_shift)
  List.replicate digit_shift 0 ++
    (if bit_shift ≠ 0 then (shlLoop bit_shift 0 copied).1 else copied)

/-- `rotate_digits_left` from `src/buint/mod.rs`: digits `0..N-n` move to
positions `n..N`, digits `N-n..N` wrap to positions `0..n`. -/
def rotate_digits_left (l : List Nat) (n : Nat) : List Nat :=
  l.drop (l.length - n) ++ l.take (l.length - n)

/-- `unchecked_rotate_left` from `src/buint/mod.rs`: rotate the digit array
by `rhs >> 6` positions, then run the sub-digit carry loop with shift
`rhs & 63`, OR-ing the final carry back into digit 0. -/
def unchecked_rotate_left (l : List Nat) (rhs : Nat) : List Nat :=
  let digit_shift := rhs >>> 6
  let bit_shift := rhs &&& 63
  let out := rotate_digits_left l digit_shift
  if bit_shift ≠ 0 then
    let p := shlLoop bit_shift 0 out
    orHead p.2 p.1
  else out

/-- `rotate_left` from `src/buint/mod.rs`: the shift amount is masked with
`BITS - 1` before the unchecked rotate. -/
def rotate_left (l : List Nat) (n : Nat) : List Nat :=
  unchecked_rotate_left l (n &&& (64 * l.length - 1))

/-- `rotate_right` from `src/buint/mod.rs`: mask the amount with `BITS - 1`
and rotate left by `BITS - n`. -/
def rotate_right (l : List Nat) (n : Nat) : List Nat :=
  unchecked_rotate_left l (64 * l.length - (n &&& (64 * l.length - 1)))

/-- `BUint::ZERO` from `src/buint/consts.rs`: `ZERO = MIN = from_digits([Digit::MIN; N])`,
all digits zero. -/
def ZERO (n : Nat) : List Nat := List.replicate n 0

end buint

namespace uint

/-- The sub-digit left-shift loop of `unchecked_shl` in `src/uint/mod.rs`:
like `shlLoop` but it also tracks `last_index`, the highest position whose
rewritten digit is nonzero (`i` is the position of the current head).
Returns (digits, final carry, final last_index). -/
def shlLoopU (s carry i lastIdx : Nat) : List Nat → List Nat × Nat × Nat
  | [] => ([], carry, lastIdx)
  | d :: r =>
    let nd := (d <<< s) % 2 ^ 64 ||| carry
    let li := if nd ≠ 0 then i else lastIdx
    let p := shlLoopU s (d >>> (64 - s)) (i + 1) li r
    (nd :: p.1, p.2)

/-- `unchecked_shl` from `src/uint/mod.rs`: same digit move and carry loop as
the `src/buint/mod.rs` version, but if the final carry is nonzero it is
written into position `last_index + 1` when that lies inside the array. -/
def unchecked_shl (u : List Nat) (rhs : Nat) : List Nat :=
  if rhs = 0 then u
  else
    let digit_shift := rhs >>> 6
    let shift := rhs &&& 63
    let copied := u.take (u.length - digit_shift)
    if shift ≠ 0 then
      let p := shlLoopU shift 0 digit_shift digit_shift copied
      let out := List.replicate digit_shift 0 ++ p.1
      if p.2.1 ≠ 0 then
        if p.2.2 + 1 < u.length then out.set (p.2.2 + 1) p.2.1 else out
      else out
    else List.replicate digit_shift 0 ++ copied

/-- `unchecked_shr` from `src/uint/mod.rs`: move digits down by `rhs >> 6`
positions, then run the borrow loop with shift `rhs & 63` from the most
significant digit downwards. -/
def unchecked_shr (u : List Nat) (rhs : Nat) : List Nat :=
  if rhs = 0 then u
  else
    let digit_shift := rhs >>> 6
    let shift := rhs &&& 63
    let copied := u.drop digit_shift
    let z := if shift ≠ 0 then (shrLoop shift copied).1 else copied
    z ++ List.replicate (u.length - z.length) 0

/-- `checked_next_power_of_two` from `src/uint/mod.rs`
(`last_digit_index l` is the source's `last_set_digit_index` and
`u64lz (l.getD (last_digit_index l) 0)` its `leading_zeros`). -/
def checked_next_power_of_two (l : List Nat) : Option (List Nat) :=
  if is_power_of_two l then some l
  else if u64lz (l.getD (last_digit_index l) 0) = 0 then
    if last_digit_index l = l.length - 1 then none
    else some ((List.replicate l.length 0).set (last_digit_index l + 1) 1)
  else
    some ((List.replicate l.length 0).set (last_digit_index l)
      (1 <<< (64 - u64lz (l.getD (last_digit_index l) 0))))

/-- Modelled from the spec: `BUint::cmp` (its file `src/uint/cmp.rs` is not
in the sources) — "Ordering compares from the most significant digit to the
least ... standard big-endian-style magnitude comparison", i.e. it orders by
represented value. -/
def cmp (a b : List Nat) : Ordering := compare (natVal a) (natVal b)

/-- Modelled from the spec: `BUint::wrapping_sub` (its file
`src/uint/wrapping.rs` is not in the sources) — ripple borrow subtraction
"returns the low-order result, discarding overflow", i.e. the difference
modulo `2^BITS` re-encoded as digits. -/
def wrapping_sub (a b : List Nat) : List Nat :=
  fromNat a.length ((natVal a + 2 ^ (64 * a.length) - natVal b) % 2 ^ (64 * a.length))

/-- The `loop` of `BUint::gcd` from `src/uint/mod.rs`, with fuel making the
recursion structural; `gcd` supplies fuel that is proved sufficient.  Each
round: swap so `u ≤ v`, subtract, return `u << k` when the difference is
zero, else strip the difference's trailing zeros and continue. -/
def gcd_loop (k : Nat) : Nat → List Nat → List Nat → List Nat
  | 0, u, _ => unchecked_shl u k
  | fuel + 1, u, v =>
    let p := match cmp u v with
      | Ordering.gt => (v, u)
      | _ => (u, v)
    let w := wrapping_sub p.2 p.1
    if is_zero w then unchecked_shl p.1 k
    else gcd_loop k fuel p.1 (unchecked_shr w (trailing_zeros w))

/-- `BUint::gcd` from `src/uint/mod.rs`: binary GCD — strip common powers of
two, then the subtract-and-shift loop. -/
def gcd (a b : List Nat) : List Nat :=
  if is_zero a then b
  else if is_zero b then a
  else
    let i := trailing_zeros a
    let u := unchecked_shr a i
    let j := trailing_zeros b
    let v := unchecked_shr b j
    let k := if i > j then j else i
    gcd_loop k (natVal u + natVal v) u v

end uint

namespace bint

/-- `BInt::MIN` from `src/bint/consts.rs`: digits `[0; N]` with
`digits[N-1] = 1 << 63` (written here as the append of its two parts). -/
def MIN (n : Nat) : List Nat := List.replicate (n - 1) 0 ++ [1 <<< 63]

/-- `BInt::MAX` from `src/bint/consts.rs`: digits `[u64::MAX; N]` with
`digits[N-1] >>= 1`. -/
def MAX (n : Nat) : List Nat :=
  List.replicate (n - 1) (2 ^ 64 - 1) ++ [(2 ^ 64 - 1) >>> 1]

/-- Modelled from the spec: the two's-complement interpretation of a digit
array ("sign is the most significant bit of the most significant digit";
the `BInt` wrapper code is not in the sources). -/
def toInt (l : List Nat) : Int :=
  if natVal l < 2 ^ (64 * l.length - 1) then (natVal l : Int)
  else (natVal l : Int) - 2 ^ (64 * l.length)

/-- Modelled from the spec: `BInt::is_negative` — the sign is the top bit of
the top digit. -/
def is_negative (l : List Nat) : Bool := l.getD (l.length - 1) 0 >>> 63 != 0

/-- Encode an integer into `n` digits, two's complement (reduction modulo
`2^(64 n)`). -/
def fromInt (n : Nat) (s : Int) : List Nat :=
  fromNat n (Int.toNat (s % ((2 : Int) ^ (64 * n))))

/-- Modelled from the spec: `BInt::checked_add` (its file is not in the
sources) — "checked: returns an optional result — absent exactly when the
... overflow flag ... is set", i.e. absent exactly when the exact sum leaves
`[MIN, MAX]`. -/
def checked_add (a b : List Nat) : Option (List Nat) :=
  if -((2 : Int) ^ (64 * a.length - 1)) ≤ toInt a + toInt b ∧
      toInt a + toInt b < (2 : Int) ^ (64 * a.length - 1) then
    some (fromInt a.length (toInt a + toInt b))
  else none

/-- Modelled from the spec: `BInt::checked_sub`, as for `checked_add`. -/
def checked_sub (a b : List Nat) : Option (List Nat) :=
  if -((2 : Int) ^ (64 * a.length - 1)) ≤ toInt a - toInt b ∧
      toInt a - toInt b < (2 : Int) ^ (64 * a.length - 1) then
    some (fromInt a.length (toInt a - toInt b))
  else none

/-- `BInt::saturating_add` from `src/bint/saturating.rs`: on overflow clamp
to `MIN` when `self` is negative, else to `MAX`. -/
def saturating_add (a b : List Nat) : List Nat :=
  match checked_add a b with
  | some add => add
  | none => if is_negative a then MIN a.length else MAX a.length

/-- `BInt::saturating_sub` from `src/bint/saturating.rs`: on overflow clamp
to `MIN` when `self` is negative, else to `MAX`. -/
def saturating_sub (a b : List Nat) : List Nat :=
  match checked_sub a b with
  | some sub => sub
  | none => if is_negative a then MIN a.length else MAX a.length

end bint

namespace types

/-- `u64::to_le_bytes` (first `k` bytes, little endian). -/
def leBytes : Nat → Nat → List Nat
  | 0, _ => []
  | k + 1, d => d % 256 :: leBytes k (d / 256)

/-- `u64::from_le_bytes`. -/
def fromLeBytes : List Nat → Nat
  | [] => 0
  | b :: r => b + 256 * fromLeBytes r

/-- The 32-byte little-endian serialization of the digits (`value.to_le_bytes()`
step of the conversion: per-digit `to_le_bytes`, flattened by the transmute). -/
def from_bytes (u : List Nat) : List Nat := (u.map (leBytes 8)).flatten

/-- The zero-padded 64-byte buffer (`to_bytes[..FROM_BYTES_LEN]` holds the
serialized digits, the rest stays `0`). -/
def to_bytes (u : List Nat) : List Nat :=
  from_bytes u ++ List.replicate (64 - (from_bytes u).length) 0

/-- `impl From<U256> for U512` from `src/types.rs`: serialize the four
digits to 32 little-endian bytes, place them at the bottom of a zeroed
64-byte buffer, and read back eight digits with `u64::from_le_bytes`. -/
def u512_from_u256 (u : List Nat) : List Nat :=
  (List.range 8).map (fun i => fromLeBytes (((to_bytes u).drop (8 * i)).take 8))

end types

/-- The overflow condition asserted by claim C1, in its own words: the most
significant nonzero digit of `x` is a lone set bit at the top of its digit,
and no higher digit exists (that digit is the last one). -/
def claimC1OverflowCond (l : List Nat) : Prop :=
  l.getD (last_digit_index l) 0 = 2 ^ 63 ∧ last_digit_index l = l.length - 1

instance decClaimC1 (l : List Nat) : Decidable (claimC1OverflowCond l) :=
  instDecidableAnd

/-! ## Lemma layer -/

/-! ### Basic facts about `natVal`, `valid`, `fromNat` -/

theorem valid_cons {d : Nat} {r : List Nat} :
    valid (d :: r) ↔ d < 2 ^ 64 ∧ valid r := by
  simp [valid]

theorem valid_append {a b : List Nat} :
    valid (a ++ b) ↔ valid a ∧ valid b := by
  constructor
  · intro h
    exact ⟨fun d hd => h d (List.mem_append_left _ hd),
      fun d hd => h d (List.mem_append_right _ hd)⟩
  · rintro ⟨h1, h2⟩ d hd
    rcases List.mem_append.mp hd with h | h
    · exact h1 d h
    · exact h2 d h

theorem natVal_cons (d : Nat) (r : List Nat) :
    natVal (d :: r) = d + 2 ^ 64 * natVal r := rfl

theorem natVal_nil : natVal [] = 0 := rfl

theorem valid_take {l : List Nat} (h : valid l) (m : Nat) : valid (l.take m) :=
  fun d hd => h d (List.mem_of_mem_take hd)

theorem valid_drop {l : List Nat} (h : valid l) (m : Nat) : valid (l.drop m) :=
  fun d hd => h d (List.mem_of_mem_drop hd)

theorem valid_reverse {l : List Nat} (h : valid l) : valid l.reverse :=
  fun d hd => h d (List.mem_reverse.mp hd)

theorem valid_replicate {c : Nat} (h : c < 2 ^ 64) (n : Nat) :
    valid (List.replicate n c) := by
  intro d hd
  rw [List.eq_of_mem_replicate hd]; exact h

theorem valid_set {l : List Nat} {x : Nat} (h : valid l) (hx : x < 2 ^ 64)
    (p : Nat) : valid (l.set p x) := by
  intro d hd
  rcases List.mem_or_eq_of_mem_set hd with h1 | h2
  · exact h d h1
  · exact h2 ▸ hx

theorem natVal_append (a b : List Nat) :
    natVal (a ++ b) = natVal a + 2 ^ (64 * a.length) * natVal b := by
  induction a with
  | nil => simp [natVal]
  | cons d t ih =>
    rw [List.cons_append, natVal_cons, natVal_cons, ih, List.length_cons,
      show 64 * (t.length + 1) = 64 * t.length + 64 from by ring, Nat.pow_add]
    ring

theorem natVal_replicate_zero (n : Nat) : natVal (List.replicate n 0) = 0 := by
  induction n with
  | zero => rfl
  | succ n ih => simp [List.replicate_succ, natVal, ih]

theorem natVal_lt {l : List Nat} (h : valid l) : natVal l < 2 ^ (64 * l.length) := by
  induction l with
  | nil => simp [natVal]
  | cons d t ih =>
    rcases valid_cons.mp h with ⟨hd, ht⟩
    have ht' := ih ht
    simp only [natVal, List.length_cons]
    have : 64 * (t.length + 1) = 64 * t.length + 64 := by ring
    rw [this, Nat.pow_add]
    calc d + 2 ^ 64 * natVal t < 2 ^ 64 + 2 ^ 64 * natVal t := by omega
    _ = 2 ^ 64 * (natVal t + 1) := by ring
    _ ≤ 2 ^ 64 * 2 ^ (64 * t.length) := by
        exact Nat.mul_le_mul_left _ (by omega)
    _ = 2 ^ (64 * t.length) * 2 ^ 64 := by ring

theorem natVal_inj {a b : List Nat} (ha : valid a) (hb : valid b)
    (hlen : a.length = b.length) (hv : natVal a = natVal b) : a = b := by
  induction a generalizing b with
  | nil =>
    cases b with
    | nil => rfl
    | cons e s => simp at hlen
  | cons d t ih =>
    cases b with
    | nil => simp at hlen
    | cons e s =>
      rcases valid_cons.mp ha with ⟨hd, ht⟩
      rcases valid_cons.mp hb with ⟨he, hs⟩
      simp only [natVal] at hv
      have hde : d = e := by
        have h1 : (d + 2 ^ 64 * natVal t) % 2 ^ 64 = d := by
          rw [Nat.add_mul_mod_self_left]; exact Nat.mod_eq_of_lt hd
        have h2 : (e + 2 ^ 64 * natVal s) % 2 ^ 64 = e := by
          rw [Nat.add_mul_mod_self_left]; exact Nat.mod_eq_of_lt he
        rw [← h1, ← h2, hv]
      have hts : natVal t = natVal s := by
        have h1 : (d + 2 ^ 64 * natVal t) / 2 ^ 64 = natVal t := by
          rw [Nat.add_mul_div_left _ _ (Nat.pos_pow_of_pos 64 (by norm_num)),
            Nat.div_eq_of_lt hd, Nat.zero_add]
        have h2 : (e + 2 ^ 64 * natVal s) / 2 ^ 64 = natVal s := by
          rw [Nat.add_mul_div_left _ _ (Nat.pos_pow_of_pos 64 (by norm_num)),
            Nat.div_eq_of_lt he, Nat.zero_add]
        rw [← h1, ← h2, hv]
      simp only [List.length_cons] at hlen
      rw [hde, ih ht hs (by omega) hts]

theorem natVal_take_drop (l : List Nat) (m : Nat) (h : m ≤ l.length) :
    natVal l = natVal (l.take m) + 2 ^ (64 * m) * natVal (l.drop m) := by
  conv_lhs => rw [← List.take_append_drop m l]
  rw [natVal_append, List.length_take, Nat.min_eq_left h]

theorem natVal_take {l : List Nat} (hv : valid l) (m : Nat) (h : m ≤ l.length) :
    natVal (l.take m) = natVal l % 2 ^ (64 * m) := by
  rw [natVal_take_drop l m h, Nat.add_mul_mod_self_left]
  have : natVal (l.take m) < 2 ^ (64 * m) := by
    have := natVal_lt (valid_take hv m)
    rwa [List.length_take, Nat.min_eq_left h] at this
  exact (Nat.mod_eq_of_lt this).symm

theorem natVal_drop {l : List Nat} (hv : valid l) (m : Nat) (h : m ≤ l.length) :
    natVal (l.drop m) = natVal l / 2 ^ (64 * m) := by
  rw [natVal_take_drop l m h,
    Nat.add_mul_div_left _ _ (Nat.pos_pow_of_pos _ (by norm_num))]
  have : natVal (l.take m) < 2 ^ (64 * m) := by
    have := natVal_lt (valid_take hv m)
    rwa [List.length_take, Nat.min_eq_left h] at this
  rw [Nat.div_eq_of_lt this, Nat.zero_add]

theorem getD_natVal {l : List Nat} (hv : valid l) (i : Nat) :
    l.getD i 0 = natVal l / 2 ^ (64 * i) % 2 ^ 64 := by
  induction l generalizing i with
  | nil => simp [natVal]
  | cons d t ih =>
    rcases valid_cons.mp hv with ⟨hd, ht⟩
    cases i with
    | zero =>
      rw [List.getD_cons_zero, natVal_cons, Nat.mul_zero, Nat.pow_zero,
        Nat.div_one, Nat.add_mul_mod_self_left, Nat.mod_eq_of_lt hd]
    | succ i =>
      have hstep : (d + 2 ^ 64 * natVal t) / 2 ^ (64 * (i + 1)) =
          natVal t / 2 ^ (64 * i) := by
        have : 64 * (i + 1) = 64 + 64 * i := by ring
        rw [this, Nat.pow_add, ← Nat.div_div_eq_div_mul,
          Nat.add_mul_div_left _ _ (Nat.pos_pow_of_pos _ (by norm_num)),
          Nat.div_eq_of_lt hd, Nat.zero_add]
      rw [List.getD_cons_succ, natVal_cons, hstep]
      exact ih ht i

theorem length_fromNat (n v : Nat) : (fromNat n v).length = n := by
  induction n generalizing v with
  | zero => rfl
  | succ n ih => simp [fromNat, ih]

theorem valid_fromNat (n v : Nat) : valid (fromNat n v) := by
  induction n generalizing v with
  | zero => intro d hd; simp [fromNat] at hd
  | succ n ih =>
    rw [fromNat, valid_cons]
    exact ⟨Nat.mod_lt _ (Nat.pos_pow_of_pos _ (by norm_num)), ih _⟩

theorem natVal_fromNat {n v : Nat} (h : v < 2 ^ (64 * n)) :
    natVal (fromNat n v) = v := by
  induction n generalizing v with
  | zero =>
    simp only [Nat.mul_zero, Nat.pow_zero, Nat.lt_one_iff] at h
    simp [fromNat, natVal, h]
  | succ n ih =>
    have hlt : v / 2 ^ 64 < 2 ^ (64 * n) := by
      rw [Nat.div_lt_iff_lt_mul (Nat.pos_pow_of_pos _ (by norm_num))]
      have : 64 * (n + 1) = 64 * n + 64 := by ring
      rw [this, Nat.pow_add] at h
      exact h
    rw [fromNat, natVal, ih hlt, Nat.add_comm, Nat.div_add_mod]

theorem natVal_set_replicate {p n x : Nat} (h : p < n) :
    natVal ((List.replicate n 0).set p x) = x * 2 ^ (64 * p) := by
  induction n generalizing p with
  | zero => omega
  | succ n ih =>
    rw [List.replicate_succ]
    cases p with
    | zero => simp [natVal_cons, natVal_replicate_zero]
    | succ p =>
      have hp : p < n := by omega
      rw [List.set_cons_succ, natVal_cons, ih hp,
        show 64 * (p + 1) = 64 + 64 * p from by ring, Nat.pow_add]
      ring

/-! ### Digit-shift arithmetic -/

theorem shl_digit_mod {s : Nat} (d : Nat) (h : s ≤ 64) :
    (d <<< s) % 2 ^ 64 = d % 2 ^ (64 - s) * 2 ^ s := by
  rw [Nat.shiftLeft_eq,
    show (2 : Nat) ^ 64 = 2 ^ (64 - s) * 2 ^ s from by
      rw [← Nat.pow_add]; congr 1; omega,
    Nat.mul_mod_mul_right]

theorem lor_eq_add {a b s : Nat} (hb : b < 2 ^ s) (ha : a % 2 ^ s = 0) :
    a ||| b = a + b := by
  obtain ⟨c, rfl⟩ := Nat.dvd_of_mod_eq_zero ha
  exact (Nat.mul_add_lt_is_or hb c).symm

theorem shlLoop_cons (s carry d : Nat) (r : List Nat) :
    shlLoop s carry (d :: r)
      = (((d <<< s) % 2 ^ 64 ||| carry) :: (shlLoop s (d >>> (64 - s)) r).1,
         (shlLoop s (d >>> (64 - s)) r).2) := rfl

theorem shlLoop_spec {s : Nat} (hs2 : s < 64) :
    ∀ (y : List Nat) (carry : Nat), valid y → carry < 2 ^ s →
      (shlLoop s carry y).1.length = y.length ∧
      valid (shlLoop s carry y).1 ∧
      (shlLoop s carry y).2 < 2 ^ s ∧
      natVal (shlLoop s carry y).1 + (shlLoop s carry y).2 * 2 ^ (64 * y.length)
        = natVal y * 2 ^ s + carry := by
  intro y
  induction y with
  | nil =>
    intro carry _ hc
    refine ⟨rfl, fun d hd => by simp [shlLoop] at hd, hc, ?_⟩
    simp [shlLoop, natVal]
  | cons d r ih =>
    intro carry hv hc
    rcases valid_cons.mp hv with ⟨hd, hr⟩
    have hpow : (2 : Nat) ^ 64 = 2 ^ (64 - s) * 2 ^ s := by
      rw [← Nat.pow_add]; congr 1; omega
    have hc' : d >>> (64 - s) < 2 ^ s := by
      rw [Nat.shiftRight_eq_div_pow]
      rw [Nat.div_lt_iff_lt_mul (Nat.pos_pow_of_pos _ (by norm_num))]
      calc d < 2 ^ 64 := hd
      _ = 2 ^ s * 2 ^ (64 - s) := by rw [← Nat.pow_add]; congr 1; omega
    obtain ⟨ihlen, ihval, ihcar, iheq⟩ := ih (d >>> (64 - s)) hr hc'
    have hnd : (d <<< s) % 2 ^ 64 ||| carry = d % 2 ^ (64 - s) * 2 ^ s + carry := by
      rw [shl_digit_mod d (by omega)]
      exact lor_eq_add hc (Nat.mul_mod_left _ _)
    have hndlt : d % 2 ^ (64 - s) * 2 ^ s + carry < 2 ^ 64 := by
      have h1 : d % 2 ^ (64 - s) < 2 ^ (64 - s) :=
        Nat.mod_lt _ (Nat.pos_pow_of_pos _ (by norm_num))
      have h2 : d % 2 ^ (64 - s) * 2 ^ s + 2 ^ s ≤ 2 ^ (64 - s) * 2 ^ s := by
        calc d % 2 ^ (64 - s) * 2 ^ s + 2 ^ s
            = (d % 2 ^ (64 - s) + 1) * 2 ^ s := by ring
        _ ≤ 2 ^ (64 - s) * 2 ^ s := Nat.mul_le_mul_right _ (by omega)
      omega
    have hkey : ((d <<< s) % 2 ^ 64 ||| carry) + 2 ^ 64 * (d >>> (64 - s))
        = d * 2 ^ s + carry := by
      rw [hnd, Nat.shiftRight_eq_div_pow]
      have hdm : d % 2 ^ (64 - s) + 2 ^ (64 - s) * (d / 2 ^ (64 - s)) = d :=
        Nat.mod_add_div d _
      calc (d % 2 ^ (64 - s) * 2 ^ s + carry) + 2 ^ 64 * (d / 2 ^ (64 - s))
          = (d % 2 ^ (64 - s) + 2 ^ (64 - s) * (d / 2 ^ (64 - s))) * 2 ^ s
              + carry := by rw [hpow]; ring
      _ = d * 2 ^ s + carry := by rw [hdm]
    rw [shlLoop_cons]
    refine ⟨by simpa using ihlen, ?_, by simpa using ihcar, ?_⟩
    · rw [valid_cons]
      exact ⟨by rw [hnd]; exact hndlt, ihval⟩
    · rw [natVal_cons, natVal_cons, List.length_cons,
        show 64 * (r.length + 1) = 64 * r.length + 64 from by ring, Nat.pow_add]
      calc ((d <<< s) % 2 ^ 64 ||| carry) + 2 ^ 64 * natVal (shlLoop s (d >>> (64 - s)) r).1
            + (shlLoop s (d >>> (64 - s)) r).2 * (2 ^ (64 * r.length) * 2 ^ 64)
          = ((d <<< s) % 2 ^ 64 ||| carry)
            + 2 ^ 64 * (natVal (shlLoop s (d >>> (64 - s)) r).1
              + (shlLoop s (d >>> (64 - s)) r).2 * 2 ^ (64 * r.length)) := by ring
      _ = ((d <<< s) % 2 ^ 64 ||| carry)
            + 2 ^ 64 * (natVal r * 2 ^ s + d >>> (64 - s)) := by rw [iheq]
      _ = (((d <<< s) % 2 ^ 64 ||| carry) + 2 ^ 64 * (d >>> (64 - s)))
            + 2 ^ 64 * natVal r * 2 ^ s := by ring
      _ = d * 2 ^ s + carry + 2 ^ 64 * natVal r * 2 ^ s := by rw [hkey]
      _ = (d + 2 ^ 64 * natVal r) * 2 ^ s + carry := by ring

theorem shlLoop_zero_carry {s : Nat} (hs2 : s < 64) (y : List Nat) (hv : valid y) :
    (shlLoop s 0 y).1.length = y.length ∧
    valid (shlLoop s 0 y).1 ∧
    natVal (shlLoop s 0 y).1 = natVal y * 2 ^ s % 2 ^ (64 * y.length) ∧
    (shlLoop s 0 y).2 = natVal y * 2 ^ s / 2 ^ (64 * y.length) := by
  obtain ⟨h1, h2, h3, h4⟩ :=
    shlLoop_spec hs2 y 0 hv (Nat.pos_pow_of_pos _ (by norm_num))
  rw [Nat.add_zero] at h4
  have hlt : natVal (shlLoop s 0 y).1 < 2 ^ (64 * y.length) := by
    have := natVal_lt h2
    rwa [h1] at this
  refine ⟨h1, h2, ?_, ?_⟩
  · rw [← h4, Nat.add_mul_mod_self_right, Nat.mod_eq_of_lt hlt]
  · rw [← h4, Nat.add_mul_div_right _ _ (Nat.pos_pow_of_pos _ (by norm_num)),
      Nat.div_eq_of_lt hlt, Nat.zero_add]

/-! ### Rotation -/

theorem rotate_digits_left_spec {l : List Nat} {n : Nat} (hv : valid l)
    (h : n ≤ l.length) :
    (buint.rotate_digits_left l n).length = l.length ∧
    valid (buint.rotate_digits_left l n) ∧
    natVal (buint.rotate_digits_left l n)
      = natVal l / 2 ^ (64 * (l.length - n))
        + 2 ^ (64 * n) * (natVal l % 2 ^ (64 * (l.length - n))) := by
  unfold buint.rotate_digits_left
  have hm : l.length - n ≤ l.length := Nat.sub_le _ _
  refine ⟨?_, ?_, ?_⟩
  · rw [List.length_append, List.length_drop, List.length_take,
      Nat.min_eq_left hm]
    omega
  · exact valid_append.mpr ⟨valid_drop hv _, valid_take hv _⟩
  · rw [natVal_append, natVal_drop hv _ hm, natVal_take hv _ hm,
      List.length_drop, show l.length - (l.length - n) = n from by omega]

theorem orHead_spec {c s : Nat} {z : List Nat} (hz : z ≠ []) (hc : c < 2 ^ s)
    (hs : s ≤ 64) (hvz : valid z) (hmod : natVal z % 2 ^ s = 0) :
    (orHead c z).length = z.length ∧ valid (orHead c z) ∧
    natVal (orHead c z) = natVal z + c := by
  cases z with
  | nil => exact absurd rfl hz
  | cons d r =>
    rcases valid_cons.mp hvz with ⟨hd, hr⟩
    have hpow : (2 : Nat) ^ 64 = 2 ^ s * 2 ^ (64 - s) := by
      rw [← Nat.pow_add]; congr 1; omega
    have hdmod : d % 2 ^ s = 0 := by
      rw [natVal_cons, hpow, Nat.mul_assoc, Nat.add_mul_mod_self_left] at hmod
      exact hmod
    have hor : d ||| c = d + c := lor_eq_add hc hdmod
    have hdc : d + c < 2 ^ 64 := by
      have h1 : d + 2 ^ s ≤ 2 ^ 64 := by
        obtain ⟨q, hq⟩ := Nat.dvd_of_mod_eq_zero hdmod
        have hqlt : q < 2 ^ (64 - s) := by
          by_contra hcon
          push_neg at hcon
          have : 2 ^ 64 ≤ d := by
            calc (2 : Nat) ^ 64 = 2 ^ s * 2 ^ (64 - s) := hpow
            _ ≤ 2 ^ s * q := Nat.mul_le_mul_left _ hcon
            _ = d := hq.symm
          omega
        calc d + 2 ^ s = 2 ^ s * (q + 1) := by rw [hq]; ring
        _ ≤ 2 ^ s * 2 ^ (64 - s) := Nat.mul_le_mul_left _ (by omega)
        _ = 2 ^ 64 := hpow.symm
      omega
    refine ⟨rfl, ?_, ?_⟩
    · rw [show orHead c (d :: r) = (d ||| c) :: r from rfl, valid_cons, hor]
      exact ⟨hdc, hr⟩
    · rw [show orHead c (d :: r) = (d ||| c) :: r from rfl, natVal_cons, hor,
        natVal_cons]
      ring

theorem shift_decompose (rhs : Nat) :
    rhs >>> 6 = rhs / 64 ∧ rhs &&& 63 = rhs % 64 := by
  constructor
  · rw [Nat.shiftRight_eq_div_pow]
  · rw [show (63 : Nat) = 2 ^ 6 - 1 from by norm_num,
      Nat.and_pow_two_sub_one_eq_mod]

theorem buint_unchecked_rotate_left_spec {l : List Nat} {rhs : Nat}
    (hv : valid l) (h : rhs ≤ 64 * l.length) :
    (buint.unchecked_rotate_left l rhs).length = l.length ∧
    valid (buint.unchecked_rotate_left l rhs) ∧
    natVal (buint.unchecked_rotate_left l rhs)
      = natVal l % 2 ^ (64 * l.length - rhs) * 2 ^ rhs
        + natVal l / 2 ^ (64 * l.length - rhs) := by
  obtain ⟨hds, hbs⟩ := shift_decompose rhs
  by_cases hb : rhs % 64 = 0
  · -- whole-digit rotation only
    have hdsle : rhs / 64 ≤ l.length := by omega
    obtain ⟨h1, h2, h3⟩ := rotate_digits_left_spec hv hdsle
    have hrot : buint.unchecked_rotate_left l rhs
        = buint.rotate_digits_left l (rhs >>> 6) := by
      unfold buint.unchecked_rotate_left
      rw [hbs, if_neg (not_not_intro hb)]
    rw [hrot, hds]
    refine ⟨h1, h2, ?_⟩
    rw [h3]
    have e1 : 64 * (l.length - rhs / 64) = 64 * l.length - rhs := by omega
    have e2 : 2 ^ (64 * (rhs / 64)) = 2 ^ rhs := by congr 1; omega
    rw [e1, e2]
    ring
  · -- digit rotation followed by sub-digit rotation
    have hbslt : rhs % 64 < 64 := Nat.mod_lt _ (by norm_num)
    have hrhslt : rhs < 64 * l.length := by omega
    have hdslt : rhs / 64 < l.length := by omega
    have hN : 1 ≤ l.length := by omega
    obtain ⟨hy1, hy2, hy3⟩ := rotate_digits_left_spec hv (Nat.le_of_lt hdslt)
    obtain ⟨hp1, hp2, hp3, hp4⟩ :=
      shlLoop_zero_carry hbslt (buint.rotate_digits_left l (rhs / 64)) hy2
    -- abbreviations
    set N := l.length with hNdef
    set v := natVal l with hvdef
    set a := 64 * (N - rhs / 64) with hadef
    set y := buint.rotate_digits_left l (rhs / 64) with hydef
    set bs := rhs % 64 with hbsdef
    have hY : natVal y = v / 2 ^ a + 2 ^ (64 * (rhs / 64)) * (v % 2 ^ a) := hy3
    have hylen : y.length = N := hy1
    -- pieces of v
    have hvB : v < 2 ^ (64 * N) := natVal_lt hv
    have hsplit : (2 : Nat) ^ (64 * N) = 2 ^ (64 * (rhs / 64)) * 2 ^ a := by
      rw [← Nat.pow_add]; congr 1; omega
    have hhi : v / 2 ^ a < 2 ^ (64 * (rhs / 64)) := by
      rw [Nat.div_lt_iff_lt_mul (Nat.pos_pow_of_pos _ (by norm_num))]
      calc v < 2 ^ (64 * N) := hvB
      _ = 2 ^ (64 * (rhs / 64)) * 2 ^ a := hsplit
    have hlo : v % 2 ^ a < 2 ^ a := Nat.mod_lt _ (Nat.pos_pow_of_pos _ (by norm_num))
    have hbsa : bs ≤ a := by
      have : 64 ≤ a := by
        rw [hadef]
        have : 1 ≤ N - rhs / 64 := by omega
        omega
      omega
    -- second-level split of the low part
    have hLsplit : v % 2 ^ a
        = v % 2 ^ a % 2 ^ (a - bs) + 2 ^ (a - bs) * (v % 2 ^ a / 2 ^ (a - bs)) :=
      (Nat.mod_add_div _ _).symm
    have hL1 : v % 2 ^ a % 2 ^ (a - bs) < 2 ^ (a - bs) :=
      Nat.mod_lt _ (Nat.pos_pow_of_pos _ (by norm_num))
    have hL2 : v % 2 ^ a / 2 ^ (a - bs) < 2 ^ bs := by
      rw [Nat.div_lt_iff_lt_mul (Nat.pos_pow_of_pos _ (by norm_num))]
      calc v % 2 ^ a < 2 ^ a := hlo
      _ = 2 ^ bs * 2 ^ (a - bs) := by rw [← Nat.pow_add]; congr 1; omega
    have e1 : (2 : Nat) ^ (64 * (rhs / 64)) * 2 ^ bs = 2 ^ rhs := by
      rw [← Nat.pow_add]; congr 1; omega
    have e2 : (2 : Nat) ^ (a - bs) * 2 ^ rhs = 2 ^ (64 * N) := by
      rw [← Nat.pow_add]; congr 1; omega
    have hkey : natVal y * 2 ^ bs
        = (v / 2 ^ a * 2 ^ bs + v % 2 ^ a % 2 ^ (a - bs) * 2 ^ rhs)
          + 2 ^ (64 * N) * (v % 2 ^ a / 2 ^ (a - bs)) := by
      calc natVal y * 2 ^ bs
          = v / 2 ^ a * 2 ^ bs + (v % 2 ^ a) * (2 ^ (64 * (rhs / 64)) * 2 ^ bs) := by
            rw [hY]; ring
      _ = v / 2 ^ a * 2 ^ bs + (v % 2 ^ a) * 2 ^ rhs := by rw [e1]
      _ = v / 2 ^ a * 2 ^ bs
            + (v % 2 ^ a % 2 ^ (a - bs) + 2 ^ (a - bs) * (v % 2 ^ a / 2 ^ (a - bs)))
              * 2 ^ rhs := by rw [← hLsplit]
      _ = (v / 2 ^ a * 2 ^ bs + v % 2 ^ a % 2 ^ (a - bs) * 2 ^ rhs)
            + (2 ^ (a - bs) * 2 ^ rhs) * (v % 2 ^ a / 2 ^ (a - bs)) := by ring
      _ = _ := by rw [e2]
    have hbound : v / 2 ^ a * 2 ^ bs + v % 2 ^ a % 2 ^ (a - bs) * 2 ^ rhs
        < 2 ^ (64 * N) := by
      have b1 : v / 2 ^ a * 2 ^ bs ≤ (2 ^ (64 * (rhs / 64)) - 1) * 2 ^ bs :=
        Nat.mul_le_mul_right _ (by omega)
      have b2 : v % 2 ^ a % 2 ^ (a - bs) * 2 ^ rhs ≤ (2 ^ (a - bs) - 1) * 2 ^ rhs :=
        Nat.mul_le_mul_right _ (by omega)
      rw [Nat.sub_mul, Nat.one_mul, e1] at b1
      rw [Nat.sub_mul, Nat.one_mul, e2] at b2
      have c1 : (2 : Nat) ^ bs ≤ 2 ^ rhs := Nat.pow_le_pow_right (by norm_num) (by omega)
      have c2 : (2 : Nat) ^ rhs ≤ 2 ^ (64 * N) :=
        Nat.pow_le_pow_right (by norm_num) (by omega)
      have c3 : (1 : Nat) ≤ 2 ^ bs := Nat.pos_pow_of_pos _ (by norm_num)
      omega
    -- evaluate the branch taken
    have hres : buint.unchecked_rotate_left l rhs
        = orHead (shlLoop bs 0 y).2 (shlLoop bs 0 y).1 := by
      unfold buint.unchecked_rotate_left
      rw [hbs, hds, if_pos hb]
    have hmodz : natVal (shlLoop bs 0 y).1 % 2 ^ bs = 0 := by
      rw [hp3, Nat.mod_mod_of_dvd _ (Nat.pow_dvd_pow 2 (by omega)),
        Nat.mul_mod_left]
    have hclt : (shlLoop bs 0 y).2 < 2 ^ bs := by
      rw [hp4, hylen, Nat.div_lt_iff_lt_mul (Nat.pos_pow_of_pos _ (by norm_num))]
      calc natVal y * 2 ^ bs < 2 ^ (64 * N) * 2 ^ bs := by
            have := natVal_lt hy2
            rw [hylen] at this
            exact (Nat.mul_lt_mul_right (Nat.pos_pow_of_pos _ (by norm_num))).mpr this
      _ = 2 ^ bs * 2 ^ (64 * N) := by ring
    have hznil : (shlLoop bs 0 y).1 ≠ [] := by
      intro hcon
      have : (shlLoop bs 0 y).1.length = 0 := by rw [hcon]; rfl
      rw [hp1, hylen] at this
      omega
    obtain ⟨ho1, ho2, ho3⟩ :=
      orHead_spec hznil hclt (by omega) hp2 hmodz
    rw [hres]
    refine ⟨by rw [ho1, hp1, hylen], ho2, ?_⟩
    rw [ho3, hp3, hp4, hylen, hkey,
      Nat.add_mul_mod_self_left, Nat.mod_eq_of_lt hbound,
      Nat.add_mul_div_left _ _ (Nat.pos_pow_of_pos _ (by norm_num)),
      Nat.div_eq_of_lt hbound, Nat.zero_add]
    -- identify the target pieces
    have t1 : v % 2 ^ (64 * N - rhs) = v % 2 ^ a % 2 ^ (a - bs) := by
      have hv_eq : v = v % 2 ^ a + 2 ^ a * (v / 2 ^ a) := (Nat.mod_add_div _ _).symm
      have e3 : (2 : Nat) ^ a = 2 ^ (a - bs) * 2 ^ bs := by
        rw [← Nat.pow_add]; congr 1; omega
      have e4 : 64 * N - rhs = a - bs := by omega
      rw [e4]
      conv_lhs => rw [hv_eq]
      rw [e3, Nat.mul_assoc, Nat.add_mul_mod_self_left]
    have t2 : v / 2 ^ (64 * N - rhs)
        = v / 2 ^ a * 2 ^ bs + v % 2 ^ a / 2 ^ (a - bs) := by
      have e4 : 64 * N - rhs = a - bs := by omega
      have hv_eq : v = (v % 2 ^ a % 2 ^ (a - bs))
          + 2 ^ (a - bs) * (v % 2 ^ a / 2 ^ (a - bs) + 2 ^ bs * (v / 2 ^ a)) := by
        have h2 : (2 : Nat) ^ a = 2 ^ (a - bs) * 2 ^ bs := by
          rw [← Nat.pow_add]; congr 1; omega
        calc v = v % 2 ^ a + 2 ^ a * (v / 2 ^ a) := (Nat.mod_add_div _ _).symm
        _ = (v % 2 ^ a % 2 ^ (a - bs) + 2 ^ (a - bs) * (v % 2 ^ a / 2 ^ (a - bs)))
              + (2 ^ (a - bs) * 2 ^ bs) * (v / 2 ^ a) := by rw [← hLsplit, ← h2]
        _ = _ := by ring
      rw [e4]
      conv_lhs => rw [hv_eq]
      rw [Nat.add_mul_div_left _ _ (Nat.pos_pow_of_pos _ (by norm_num)),
        Nat.div_eq_of_lt hL1, Nat.zero_add]
      ring
    rw [t1, t2]
    ring

/-- C3: for every unsigned value `x` (a valid digit array) and every shift
amount `k`, with no upper bound on `k`,
`x.rotate_left(k).rotate_right(k) == x` for the rotate implementation of
`src/buint/mod.rs`. -/
theorem c3_rotate_left_right_roundtrip (l : List Nat) (k : Nat)
    (hv : valid l) :
    buint.rotate_right (buint.rotate_left l k) k = l := by
  have hm : k &&& (64 * l.length - 1) ≤ 64 * l.length :=
    le_trans Nat.and_le_right (by omega)
  obtain ⟨len1, val1, nv1⟩ := buint_unchecked_rotate_left_spec hv hm
  have hrl : buint.rotate_left l k
      = buint.unchecked_rotate_left l (k &&& (64 * l.length - 1)) := rfl
  rw [hrl] at *
  set m := k &&& (64 * l.length - 1) with hmdef
  set r1 := buint.unchecked_rotate_left l m with hr1def
  have hrr : buint.rotate_right r1 k
      = buint.unchecked_rotate_left r1 (64 * r1.length - (k &&& (64 * r1.length - 1))) := rfl
  rw [hrr, len1, ← hmdef]
  have hm2 : 64 * l.length - m ≤ 64 * r1.length := by
    rw [len1]
    exact Nat.sub_le _ _
  obtain ⟨len2, val2, nv2⟩ := buint_unchecked_rotate_left_spec val1 hm2
  rw [len1] at len2 nv2
  set B := 64 * l.length with hBdef
  set v := natVal l with hvdef
  -- value of the first rotation
  have hvB : v < 2 ^ B := natVal_lt hv
  have hsplit : (2 : Nat) ^ B = 2 ^ m * 2 ^ (B - m) := by
    rw [← Nat.pow_add]; congr 1; omega
  have hhi : v / 2 ^ (B - m) < 2 ^ m := by
    rw [Nat.div_lt_iff_lt_mul (Nat.pos_pow_of_pos _ (by norm_num))]
    calc v < 2 ^ B := hvB
    _ = 2 ^ m * 2 ^ (B - m) := hsplit
  have hv1form : natVal r1 = v / 2 ^ (B - m) + 2 ^ m * (v % 2 ^ (B - m)) := by
    rw [nv1]; ring
  have hBm : B - (B - m) = m := by omega
  have hmod : natVal r1 % 2 ^ m = v / 2 ^ (B - m) := by
    rw [hv1form, Nat.add_mul_mod_self_left, Nat.mod_eq_of_lt hhi]
  have hdiv : natVal r1 / 2 ^ m = v % 2 ^ (B - m) := by
    rw [hv1form, Nat.add_mul_div_left _ _ (Nat.pos_pow_of_pos _ (by norm_num)),
      Nat.div_eq_of_lt hhi, Nat.zero_add]
  have hval2 : natVal (buint.unchecked_rotate_left r1 (B - m)) = v := by
    rw [nv2, hBm, hmod, hdiv]
    calc v / 2 ^ (B - m) * 2 ^ (B - m) + v % 2 ^ (B - m)
        = 2 ^ (B - m) * (v / 2 ^ (B - m)) + v % 2 ^ (B - m) := by ring
    _ = v := Nat.div_add_mod _ _
  exact natVal_inj val2 hv (by rw [len2]) hval2

/-- C3 witness. -/
theorem c3_rotate_left_right_roundtrip_witness :
    valid [5, 7] ∧ buint.rotate_right (buint.rotate_left [5, 7] 99) 99 = [5, 7] :=
  ⟨by decide, c3_rotate_left_right_roundtrip [5, 7] 99 (by decide)⟩

/-- C2 counterexample: with `N = 3` digits (`BITS = 192`), rotating `1` by
`192` is not the same as rotating by `192 % BITS = 0`, because the source
masks the amount with `BITS - 1` instead of reducing it modulo `BITS`. -/
theorem c2_rotate_mask_counterexample :
    buint.rotate_left [1, 0, 0] 192
      ≠ buint.rotate_left [1, 0, 0] (192 % (64 * 3)) := by decide

/-- C2 amended: the rotate shift amount is reduced by the bitwise mask
`k &&& (BITS - 1)`; when the digit count `N` is a power of two (as for every
width the crate's `types.rs` defines), `BITS` is a power of two and this
coincides with reduction modulo `BITS`. -/
theorem c2_rotate_mod_of_pow_two_digits (l : List Nat) (k : Nat)
    (h : ∃ i, l.length = 2 ^ i) :
    buint.rotate_left l k = buint.rotate_left l (k % (64 * l.length)) := by
  obtain ⟨i, hi⟩ := h
  have hB : 64 * l.length = 2 ^ (6 + i) := by
    rw [hi]
    ring
  show buint.unchecked_rotate_left l (k &&& (64 * l.length - 1))
      = buint.unchecked_rotate_left l (k % (64 * l.length) &&& (64 * l.length - 1))
  rw [hB, Nat.and_pow_two_sub_one_eq_mod, Nat.and_pow_two_sub_one_eq_mod,
    Nat.mod_mod_of_dvd _ dvd_rfl]

/-- C2 witness for the amended statement. -/
theorem c2_rotate_mod_of_pow_two_digits_witness :
    (∃ i, ([5] : List Nat).length = 2 ^ i) ∧
      buint.rotate_left [5] 200 = buint.rotate_left [5] (200 % (64 * ([5] : List Nat).length)) :=
  ⟨⟨0, rfl⟩, c2_rotate_mod_of_pow_two_digits [5] 200 ⟨0, rfl⟩⟩

/-- C4: the two `unchecked_shl` implementations disagree.  At `N = 2`,
`u = 2^127` (digits `[0, 2^63]`), `rhs = 1 < BITS`, the version of
`src/uint/mod.rs` shifts the top digit to `0`, leaves `last_index` at `0`,
and then writes the carry bit shifted out of the top digit back into digit
`last_index + 1 = 1`, returning `2^64`; the version of `src/buint/mod.rs`
discards that carry and returns `0` (native `u128` semantics). -/
theorem c4_unchecked_shl_divergence :
    uint.unchecked_shl [0, 2 ^ 63] 1 = [0, 1] ∧
    buint.unchecked_shl [0, 2 ^ 63] 1 = [0, 0] ∧
    uint.unchecked_shl [0, 2 ^ 63] 1 ≠ buint.unchecked_shl [0, 2 ^ 63] 1 := by
  decide

/-! ### Digit/bit reversal -/

theorem digRev_lt {b : Nat} (hb : 2 ≤ b) :
    ∀ (f d : Nat), digRev b f d < b ^ f := by
  intro f
  induction f with
  | zero => intro d; simp [digRev]
  | succ f ih =>
    intro d
    have h1 : d % b < b := Nat.mod_lt _ (by omega)
    have h2 : digRev b f (d / b) < b ^ f := ih _
    calc d % b * b ^ f + digRev b f (d / b)
        < d % b * b ^ f + b ^ f := by omega
    _ = (d % b + 1) * b ^ f := by ring
    _ ≤ b * b ^ f := Nat.mul_le_mul_right _ (by omega)
    _ = b ^ (f + 1) := by rw [Nat.pow_succ]; ring

theorem digRev_digit {b : Nat} (hb : 2 ≤ b) :
    ∀ (f d j : Nat), j < f →
      digRev b f d / b ^ j % b = d / b ^ (f - 1 - j) % b := by
  intro f
  induction f with
  | zero => intro d j hj; omega
  | succ f ih =>
    intro d j hj
    have hR : digRev b (f + 1) d = d % b * b ^ f + digRev b f (d / b) := rfl
    rcases Nat.lt_or_ge j f with hjf | hjf
    · -- a lower digit: comes from the reversed tail
      have hsplit : (b : Nat) ^ f = b ^ j * b ^ (f - j) := by
        rw [← Nat.pow_add]; congr 1; omega
      have hform : digRev b (f + 1) d
          = digRev b f (d / b) + b ^ j * (b ^ (f - j) * (d % b)) := by
        rw [hR, hsplit]; ring
      have hstep : digRev b (f + 1) d / b ^ j
          = digRev b f (d / b) / b ^ j + b ^ (f - j) * (d % b) := by
        rw [hform, Nat.add_mul_div_left _ _ (Nat.pos_pow_of_pos _ (by omega))]
      have hzero : (b ^ (f - j) * (d % b)) % b = 0 := by
        have : (b : Nat) ^ (f - j) = b * b ^ (f - j - 1) := by
          rw [← Nat.pow_succ']; congr 1; omega
        rw [this, Nat.mul_assoc, Nat.mul_mod_right]
      have hmod : digRev b (f + 1) d / b ^ j % b
          = digRev b f (d / b) / b ^ j % b := by
        rw [hstep, Nat.add_mod, hzero, Nat.add_zero, Nat.mod_mod_of_dvd _ dvd_rfl]
      rw [hmod, ih (d / b) j hjf, Nat.div_div_eq_div_mul]
      have hexp : b * b ^ (f - 1 - j) = b ^ (f + 1 - 1 - j) := by
        rw [← Nat.pow_succ']
        congr 1
        omega
      rw [hexp]
    · -- the top digit: comes from the input's lowest digit
      have hj' : j = f := by omega
      rw [hj']
      have htop : digRev b (f + 1) d / b ^ f = d % b := by
        rw [hR, show d % b * b ^ f + digRev b f (d / b)
              = digRev b f (d / b) + b ^ f * (d % b) from by ring,
          Nat.add_mul_div_left _ _ (Nat.pos_pow_of_pos _ (by omega)),
          Nat.div_eq_of_lt (digRev_lt hb f _), Nat.zero_add]
      rw [htop, Nat.mod_mod_of_dvd _ dvd_rfl,
        show f + 1 - 1 - f = 0 from by omega, Nat.pow_zero, Nat.div_one]

theorem base_ext {b : Nat} (hb : 2 ≤ b) :
    ∀ (f x y : Nat), x < b ^ f → y < b ^ f →
      (∀ j, j < f → x / b ^ j % b = y / b ^ j % b) → x = y := by
  intro f
  induction f with
  | zero =>
    intro x y hx hy _
    simp only [Nat.pow_zero, Nat.lt_one_iff] at hx hy
    rw [hx, hy]
  | succ f ih =>
    intro x y hx hy hdig
    have hb0 : 0 < b := by omega
    have h0 : x % b = y % b := by
      have := hdig 0 (by omega)
      simpa using this
    have hx' : x / b < b ^ f := by
      rw [Nat.div_lt_iff_lt_mul hb0]
      calc x < b ^ (f + 1) := hx
      _ = b ^ f * b := by rw [Nat.pow_succ]
    have hy' : y / b < b ^ f := by
      rw [Nat.div_lt_iff_lt_mul hb0]
      calc y < b ^ (f + 1) := hy
      _ = b ^ f * b := by rw [Nat.pow_succ]
    have hdig' : ∀ j, j < f → x / b / b ^ j % b = y / b / b ^ j % b := by
      intro j hj
      rw [Nat.div_div_eq_div_mul, Nat.div_div_eq_div_mul, ← Nat.pow_succ']
      exact hdig (j + 1) (by omega)
    have htail := ih (x / b) (y / b) hx' hy' hdig'
    calc x = x % b + b * (x / b) := (Nat.mod_add_div _ _).symm
    _ = y % b + b * (y / b) := by rw [h0, htail]
    _ = y := Nat.mod_add_div _ _

theorem digRev_involution {b : Nat} (hb : 2 ≤ b) {f d : Nat} (hd : d < b ^ f) :
    digRev b f (digRev b f d) = d := by
  refine base_ext hb f _ _ (digRev_lt hb f _) hd ?_
  intro j hj
  rw [digRev_digit hb f _ j hj, digRev_digit hb f d (f - 1 - j) (by omega),
    show f - 1 - (f - 1 - j) = j from by omega]

theorem u64swap_bytes_involution {d : Nat} (hd : d < 2 ^ 64) :
    u64swap_bytes (u64swap_bytes d) = d := by
  have h : d < 256 ^ 8 := by
    rw [show (256 : Nat) ^ 8 = 2 ^ 64 from by norm_num]
    exact hd
  exact digRev_involution (by norm_num) h

theorem u64swap_bytes_lt (d : Nat) : u64swap_bytes d < 2 ^ 64 := by
  have h := digRev_lt (b := 256) (by norm_num) 8 d
  rw [show (256 : Nat) ^ 8 = 2 ^ 64 from by norm_num] at h
  exact h

theorem u64reverse_bits_involution {d : Nat} (hd : d < 2 ^ 64) :
    u64reverse_bits (u64reverse_bits d) = d :=
  digRev_involution (by norm_num) hd

theorem u64reverse_bits_lt (d : Nat) : u64reverse_bits d < 2 ^ 64 :=
  digRev_lt (by norm_num) 64 d

theorem rev_map_involution (g : Nat → Nat) (l : List Nat)
    (hg : ∀ x ∈ l, g (g x) = x) :
    ((l.reverse.map g).reverse).map g = l := by
  have h1 : (l.reverse.map g).reverse = l.map g := by
    rw [List.map_reverse, List.reverse_reverse]
  rw [h1, List.map_map]
  calc l.map (g ∘ g) = l.map id := List.map_congr_left (fun a ha => hg a ha)
  _ = l := List.map_id l

/-- C10: `swap_bytes` and `reverse_bits` are involutions on every valid
digit array: each reverses the digit order and applies the per-digit
byte/bit reversal, and both layers are involutions. -/
theorem c10_swap_reverse_involution (l : List Nat) (hv : valid l) :
    swap_bytes (swap_bytes l) = l ∧ reverse_bits (reverse_bits l) = l := by
  constructor
  · exact rev_map_involution u64swap_bytes l
      (fun x hx => u64swap_bytes_involution (hv x hx))
  · exact rev_map_involution u64reverse_bits l
      (fun x hx => u64reverse_bits_involution (hv x hx))

/-- C10 witness. -/
theorem c10_swap_reverse_involution_witness :
    valid [3, 2 ^ 63 + 17] ∧
      (swap_bytes (swap_bytes [3, 2 ^ 63 + 17]) = [3, 2 ^ 63 + 17] ∧
        reverse_bits (reverse_bits [3, 2 ^ 63 + 17]) = [3, 2 ^ 63 + 17]) :=
  ⟨by decide, c10_swap_reverse_involution [3, 2 ^ 63 + 17] (by decide)⟩

/-! ### `bit` as `testBit` of the value -/

theorem land_two_pow_ne_zero (x j : Nat) :
    (x &&& 2 ^ j != 0) = x.testBit j := by
  rw [Nat.and_two_pow]
  cases h : x.testBit j <;> simp

theorem bit_testBit {l : List Nat} (hv : valid l) (i : Nat) :
    bit l i = (natVal l).testBit i := by
  obtain ⟨hds, hbs⟩ := shift_decompose i
  unfold bit
  rw [hds, hbs, getD_natVal hv, Nat.shiftLeft_eq, Nat.one_mul,
    land_two_pow_ne_zero, Nat.testBit_mod_two_pow,
    decide_eq_true (show i % 64 < 64 from Nat.mod_lt _ (by norm_num)),
    Bool.true_and,
    show natVal l / 2 ^ (64 * (i / 64)) = natVal l >>> (64 * (i / 64)) from
      (Nat.shiftRight_eq_div_pow _ _).symm,
    Nat.testBit_shiftRight,
    show 64 * (i / 64) + i % 64 = i from by omega]

/-! ### C7: the signed constants MIN and MAX -/

theorem natVal_replicate_max (m : Nat) :
    natVal (List.replicate m (2 ^ 64 - 1)) + 1 = 2 ^ (64 * m) := by
  induction m with
  | zero => simp [natVal]
  | succ m ih =>
    rw [List.replicate_succ, natVal_cons,
      show 64 * (m + 1) = 64 * m + 64 from by ring, Nat.pow_add]
    have h1 : (1 : Nat) ≤ 2 ^ 64 := Nat.one_le_two_pow
    calc 2 ^ 64 - 1 + 2 ^ 64 * natVal (List.replicate m (2 ^ 64 - 1)) + 1
        = 2 ^ 64 * (natVal (List.replicate m (2 ^ 64 - 1)) + 1) := by omega
    _ = 2 ^ 64 * 2 ^ (64 * m) := by rw [ih]
    _ = 2 ^ (64 * m) * 2 ^ 64 := by ring

theorem bint_MIN_length {n : Nat} (h : 1 ≤ n) : (bint.MIN n).length = n := by
  unfold bint.MIN
  simp
  omega

theorem bint_MAX_length {n : Nat} (h : 1 ≤ n) : (bint.MAX n).length = n := by
  unfold bint.MAX
  simp
  omega

theorem bint_MIN_valid (n : Nat) : valid (bint.MIN n) := by
  unfold bint.MIN
  rw [valid_append]
  constructor
  · exact valid_replicate (by norm_num) _
  · intro d hd
    simp at hd
    subst hd
    decide

theorem bint_MAX_valid (n : Nat) : valid (bint.MAX n) := by
  unfold bint.MAX
  rw [valid_append]
  constructor
  · exact valid_replicate (by norm_num) _
  · intro d hd
    simp at hd
    subst hd
    decide

theorem bint_MIN_natVal {n : Nat} (h : 1 ≤ n) :
    natVal (bint.MIN n) = 2 ^ (64 * n - 1) := by
  unfold bint.MIN
  rw [natVal_append, natVal_replicate_zero, List.length_replicate,
    show natVal [1 <<< 63] = 2 ^ 63 from by decide]
  rw [Nat.zero_add, ← Nat.pow_add]
  congr 1
  omega

theorem bint_MAX_natVal {n : Nat} (h : 1 ≤ n) :
    natVal (bint.MAX n) = 2 ^ (64 * n - 1) - 1 := by
  unfold bint.MAX
  rw [natVal_append, List.length_replicate,
    show natVal [(2 ^ 64 - 1) >>> 1] = 2 ^ 63 - 1 from by decide]
  have h1 := natVal_replicate_max (n - 1)
  have h2 : (2 : Nat) ^ (64 * (n - 1)) * 2 ^ 63 = 2 ^ (64 * n - 1) := by
    rw [← Nat.pow_add]
    congr 1
    omega
  have h3 : (1 : Nat) ≤ 2 ^ 63 := Nat.one_le_two_pow
  have h4 : (1 : Nat) ≤ 2 ^ (64 * (n - 1)) := Nat.one_le_two_pow
  calc natVal (List.replicate (n - 1) (2 ^ 64 - 1)) + 2 ^ (64 * (n - 1)) * (2 ^ 63 - 1)
      = (natVal (List.replicate (n - 1) (2 ^ 64 - 1)) + 1)
        + 2 ^ (64 * (n - 1)) * (2 ^ 63 - 1) - 1 := by omega
  _ = 2 ^ (64 * (n - 1)) + 2 ^ (64 * (n - 1)) * (2 ^ 63 - 1) - 1 := by rw [h1]
  _ = 2 ^ (64 * (n - 1)) * (1 + (2 ^ 63 - 1)) - 1 := by
      congr 1
      ring
  _ = 2 ^ (64 * (n - 1)) * 2 ^ 63 - 1 := by
      rw [show (1 : Nat) + (2 ^ 63 - 1) = 2 ^ 63 from by norm_num]
  _ = 2 ^ (64 * n - 1) - 1 := by rw [h2]

/-- C7: for every digit count `N ≥ 1`, `BInt::MIN` has exactly the sign bit
(bit `BITS-1`) set and `BInt::MAX` has every bit except the sign bit set;
in two's complement `MIN = -2^(BITS-1)` and `MAX = 2^(BITS-1) - 1`. -/
theorem c7_bint_min_max (n : Nat) (h : 1 ≤ n) :
    (∀ i, i < 64 * n → bit (bint.MIN n) i = decide (i = 64 * n - 1)) ∧
    (∀ i, i < 64 * n → bit (bint.MAX n) i = !decide (i = 64 * n - 1)) ∧
    bint.toInt (bint.MIN n) = -(2 ^ (64 * n - 1)) ∧
    bint.toInt (bint.MAX n) = 2 ^ (64 * n - 1) - 1 := by
  have hminv := bint_MIN_natVal h
  have hmaxv := bint_MAX_natVal h
  have h1 : (1 : Nat) ≤ 2 ^ (64 * n - 1) := Nat.one_le_two_pow
  refine ⟨?_, ?_, ?_, ?_⟩
  · intro i _
    rw [bit_testBit (bint_MIN_valid n), hminv, Nat.testBit_two_pow]
    exact decide_eq_decide.mpr eq_comm
  · intro i hi
    rw [bit_testBit (bint_MAX_valid n), hmaxv, Nat.testBit_two_pow_sub_one]
    have hiff : (i < 64 * n - 1) ↔ ¬(i = 64 * n - 1) := by omega
    rw [decide_eq_decide.mpr hiff, decide_not]
  · unfold bint.toInt
    rw [bint_MIN_length h, hminv, if_neg (by omega)]
    have h2 : (2 : Int) ^ (64 * n) = 2 ^ (64 * n - 1) * 2 := by
      rw [← pow_succ]
      congr 1
      omega
    push_cast
    rw [h2]
    ring
  · unfold bint.toInt
    rw [bint_MAX_length h, hmaxv, if_pos (by omega)]
    push_cast [h1]
    ring

/-- C7 witness. -/
theorem c7_bint_min_max_witness :
    1 ≤ 2 ∧
      ((∀ i, i < 64 * 2 → bit (bint.MIN 2) i = decide (i = 64 * 2 - 1)) ∧
        (∀ i, i < 64 * 2 → bit (bint.MAX 2) i = !decide (i = 64 * 2 - 1)) ∧
        bint.toInt (bint.MIN 2) = -(2 ^ (64 * 2 - 1)) ∧
        bint.toInt (bint.MAX 2) = 2 ^ (64 * 2 - 1) - 1) :=
  ⟨by norm_num, c7_bint_min_max 2 (by norm_num)⟩

/-! ### C8: the `From<U256> for U512` conversion of `src/types.rs` -/

theorem fromLeBytes_leBytes : ∀ (k d : Nat),
    types.fromLeBytes (types.leBytes k d) = d % 256 ^ k := by
  intro k
  induction k with
  | zero =>
    intro d
    simp [types.leBytes, types.fromLeBytes, Nat.mod_one]
  | succ k ih =>
    intro d
    rw [types.leBytes, types.fromLeBytes, ih,
      show (256 : Nat) ^ (k + 1) = 256 * 256 ^ k from by rw [Nat.pow_succ'],
      Nat.mod_mul]

theorem leBytes_length (k d : Nat) : (types.leBytes k d).length = k := by
  induction k generalizing d with
  | zero => rfl
  | succ k ih => simp [types.leBytes, ih]

theorem fromLeBytes_replicate_zero (k : Nat) :
    types.fromLeBytes (List.replicate k 0) = 0 := by
  induction k with
  | zero => rfl
  | succ k ih => simp [List.replicate_succ, types.fromLeBytes, ih]

/-- C8: the widening conversion `From<U256> for U512` zero-extends: the four
low digits of the result are the digits of `u` in order, the four high
digits are zero, and the represented value is unchanged. -/
theorem c8_u512_from_u256 (u : List Nat) (hv : valid u) (h4 : u.length = 4) :
    types.u512_from_u256 u = u ++ [0, 0, 0, 0] ∧
    natVal (types.u512_from_u256 u) = natVal u := by
  -- destructure the four digits
  match u, h4 with
  | [a, b, c, d], _ =>
  have ha : a < 2 ^ 64 := hv a (by simp)
  have hb : b < 2 ^ 64 := hv b (by simp)
  have hc : c < 2 ^ 64 := hv c (by simp)
  have hd : d < 2 ^ 64 := hv d (by simp)
  have h256 : (256 : Nat) ^ 8 = 2 ^ 64 := by norm_num
  have hround : ∀ x : Nat, x < 2 ^ 64 → types.fromLeBytes (types.leBytes 8 x) = x := by
    intro x hx
    rw [fromLeBytes_leBytes, h256, Nat.mod_eq_of_lt hx]
  have hflat : (([a, b, c, d].map (types.leBytes 8)).flatten)
      = types.leBytes 8 a ++ (types.leBytes 8 b ++ (types.leBytes 8 c
          ++ (types.leBytes 8 d ++ []))) := rfl
  have hflen : (([a, b, c, d].map (types.leBytes 8)).flatten).length = 32 := by
    rw [hflat]
    simp [leBytes_length]
  have htob : types.to_bytes [a, b, c, d]
      = types.leBytes 8 a ++ (types.leBytes 8 b ++ (types.leBytes 8 c
          ++ (types.leBytes 8 d ++ List.replicate 32 0))) := by
    unfold types.to_bytes
    rw [show types.from_bytes [a, b, c, d]
        = types.leBytes 8 a ++ (types.leBytes 8 b ++ (types.leBytes 8 c
            ++ (types.leBytes 8 d ++ []))) from rfl]
    simp [leBytes_length, List.append_assoc]
  have heq : types.u512_from_u256 [a, b, c, d]
      = [a, b, c, d] ++ [0, 0, 0, 0] := by
    unfold types.u512_from_u256
    rw [show List.range 8 = [0, 1, 2, 3, 4, 5, 6, 7] from rfl, List.map, List.map,
      List.map, List.map, List.map, List.map, List.map, List.map, List.map, htob]
    have d8 : ∀ (x : Nat) (t : List Nat),
        (types.leBytes 8 x ++ t).drop 8 = t := fun x t => List.drop_left' (leBytes_length 8 x)
    have t8 : ∀ (x : Nat) (t : List Nat),
        (types.leBytes 8 x ++ t).take 8 = types.leBytes 8 x :=
      fun x t => List.take_left' (leBytes_length 8 x)
    -- the eight digit slots
    have g0 : types.fromLeBytes (((types.leBytes 8 a ++ (types.leBytes 8 b
        ++ (types.leBytes 8 c ++ (types.leBytes 8 d ++ List.replicate 32 0)))).drop (8 * 0)).take 8) = a := by
      rw [show 8 * 0 = 0 from rfl, List.drop_zero, t8, hround a ha]
    have g1 : types.fromLeBytes (((types.leBytes 8 a ++ (types.leBytes 8 b
        ++ (types.leBytes 8 c ++ (types.leBytes 8 d ++ List.replicate 32 0)))).drop (8 * 1)).take 8) = b := by
      rw [show 8 * 1 = 8 from rfl, d8, t8, hround b hb]
    have g2 : types.fromLeBytes (((types.leBytes 8 a ++ (types.leBytes 8 b
        ++ (types.leBytes 8 c ++ (types.leBytes 8 d ++ List.replicate 32 0)))).drop (8 * 2)).take 8) = c := by
      rw [show (8 * 2 : Nat) = 8 + 8 from rfl, ← List.drop_drop, d8, d8, t8, hround c hc]
    have g3 : types.fromLeBytes (((types.leBytes 8 a ++ (types.leBytes 8 b
        ++ (types.leBytes 8 c ++ (types.leBytes 8 d ++ List.replicate 32 0)))).drop (8 * 3)).take 8) = d := by
      rw [show (8 * 3 : Nat) = (8 + 8) + 8 from rfl, ← List.drop_drop, ← List.drop_drop,
        d8, d8, d8, t8, hround d hd]
    have drop32 : (types.leBytes 8 a ++ (types.leBytes 8 b
        ++ (types.leBytes 8 c ++ (types.leBytes 8 d ++ List.replicate 32 0)))).drop 32
        = List.replicate 32 0 := by
      rw [show (32 : Nat) = 8 + (8 + (8 + 8)) from rfl, ← List.drop_drop, ← List.drop_drop,
        ← List.drop_drop, d8, d8, d8, d8]
    have grep : ∀ m : Nat, 8 ≤ m → types.fromLeBytes ((List.replicate m (0 : Nat)).take 8) = 0 := by
      intro m hm
      rw [List.take_replicate, show min 8 m = 8 from by omega, fromLeBytes_replicate_zero]
    have g4 : types.fromLeBytes (((types.leBytes 8 a ++ (types.leBytes 8 b
        ++ (types.leBytes 8 c ++ (types.leBytes 8 d ++ List.replicate 32 0)))).drop (8 * 4)).take 8) = 0 := by
      rw [show (8 * 4 : Nat) = 32 from rfl, drop32]
      exact grep 32 (by norm_num)
    have g5 : types.fromLeBytes (((types.leBytes 8 a ++ (types.leBytes 8 b
        ++ (types.leBytes 8 c ++ (types.leBytes 8 d ++ List.replicate 32 0)))).drop (8 * 5)).take 8) = 0 := by
      rw [show (8 * 5 : Nat) = 32 + 8 from rfl, ← List.drop_drop, drop32,
        List.drop_replicate]
      exact grep _ (by norm_num)
    have g6 : types.fromLeBytes (((types.leBytes 8 a ++ (types.leBytes 8 b
        ++ (types.leBytes 8 c ++ (types.leBytes 8 d ++ List.replicate 32 0)))).drop (8 * 6)).take 8) = 0 := by
      rw [show (8 * 6 : Nat) = 32 + 16 from rfl, ← List.drop_drop, drop32,
        List.drop_replicate]
      exact grep _ (by norm_num)
    have g7 : types.fromLeBytes (((types.leBytes 8 a ++ (types.leBytes 8 b
        ++ (types.leBytes 8 c ++ (types.leBytes 8 d ++ List.replicate 32 0)))).drop (8 * 7)).take 8) = 0 := by
      rw [show (8 * 7 : Nat) = 32 + 24 from rfl, ← List.drop_drop, drop32,
        List.drop_replicate]
      exact grep _ (by norm_num)
    rw [g0, g1, g2, g3, g4, g5, g6, g7]
    rfl
  refine ⟨heq, ?_⟩
  rw [heq, natVal_append]
  rw [show natVal [0, 0, 0, 0] = 0 from rfl]
  ring

/-- C8 witness. -/
theorem c8_u512_from_u256_witness :
    (valid [1, 2, 3, 4] ∧ ([1, 2, 3, 4] : List Nat).length = 4) ∧
      (types.u512_from_u256 [1, 2, 3, 4] = [1, 2, 3, 4] ++ [0, 0, 0, 0] ∧
        natVal (types.u512_from_u256 [1, 2, 3, 4]) = natVal [1, 2, 3, 4]) :=
  ⟨⟨by decide, rfl⟩, c8_u512_from_u256 [1, 2, 3, 4] (by decide) rfl⟩

/-! ### C5: signed saturating add/sub -/

theorem bint_toInt_MIN {n : Nat} (h : 1 ≤ n) :
    bint.toInt (bint.MIN n) = -(2 ^ (64 * n - 1)) := by
  unfold bint.toInt
  rw [bint_MIN_length h, bint_MIN_natVal h, if_neg (by omega)]
  have h2 : (2 : Int) ^ (64 * n) = 2 ^ (64 * n - 1) * 2 := by
    rw [← pow_succ]
    congr 1
    omega
  push_cast
  rw [h2]
  ring

theorem bint_toInt_MAX {n : Nat} (h : 1 ≤ n) :
    bint.toInt (bint.MAX n) = 2 ^ (64 * n - 1) - 1 := by
  have h1 : (1 : Nat) ≤ 2 ^ (64 * n - 1) := Nat.one_le_two_pow
  unfold bint.toInt
  rw [bint_MAX_length h, bint_MAX_natVal h, if_pos (by omega)]
  push_cast [h1]
  ring

theorem bint_toInt_bounds {l : List Nat} (hv : valid l) (h : 1 ≤ l.length) :
    -((2 : Int) ^ (64 * l.length - 1)) ≤ bint.toInt l ∧
      bint.toInt l < 2 ^ (64 * l.length - 1) := by
  have hvB := natVal_lt hv
  have h2 : (2 : Nat) ^ (64 * l.length) = 2 ^ (64 * l.length - 1) * 2 := by
    rw [← pow_succ]
    congr 1
    omega
  unfold bint.toInt
  by_cases hc : natVal l < 2 ^ (64 * l.length - 1)
  · rw [if_pos hc]
    constructor
    · have : (0 : Int) ≤ (natVal l : Int) := Int.natCast_nonneg _
      have : (0 : Int) ≤ 2 ^ (64 * l.length - 1) := by positivity
      omega
    · exact_mod_cast hc
  · rw [if_neg hc]
    push_neg at hc
    have hc' : ((2 : Int) ^ (64 * l.length - 1)) ≤ (natVal l : Int) := by
      exact_mod_cast hc
    have hvB' : (natVal l : Int) < 2 ^ (64 * l.length) := by exact_mod_cast hvB
    have h2' : (2 : Int) ^ (64 * l.length) = 2 ^ (64 * l.length - 1) * 2 := by
      exact_mod_cast h2
    omega

theorem bint_is_negative_iff {l : List Nat} (hv : valid l) (h : 1 ≤ l.length) :
    bint.is_negative l = true ↔ bint.toInt l < 0 := by
  have hvB := natVal_lt hv
  have hgd : l.getD (l.length - 1) 0 = natVal l / 2 ^ (64 * (l.length - 1)) := by
    rw [getD_natVal hv]
    have : natVal l / 2 ^ (64 * (l.length - 1)) < 2 ^ 64 := by
      rw [Nat.div_lt_iff_lt_mul (Nat.pos_pow_of_pos _ (by norm_num))]
      calc natVal l < 2 ^ (64 * l.length) := hvB
      _ = 2 ^ 64 * 2 ^ (64 * (l.length - 1)) := by
          rw [← Nat.pow_add]
          congr 1
          omega
    exact Nat.mod_eq_of_lt this
  have hdd : l.getD (l.length - 1) 0 >>> 63 = natVal l / 2 ^ (64 * l.length - 1) := by
    rw [hgd, Nat.shiftRight_eq_div_pow, Nat.div_div_eq_div_mul, ← Nat.pow_add]
    congr 2
    omega
  unfold bint.is_negative
  rw [hdd]
  have hsplit : bint.toInt l < 0 ↔ 2 ^ (64 * l.length - 1) ≤ natVal l := by
    unfold bint.toInt
    by_cases hc : natVal l < 2 ^ (64 * l.length - 1)
    · rw [if_pos hc]
      constructor
      · intro hneg
        exact absurd (Int.natCast_nonneg (natVal l)) (by omega)
      · intro hle
        omega
    · rw [if_neg hc]
      push_neg at hc
      constructor
      · intro _
        exact hc
      · intro _
        have hvB' : (natVal l : Int) < 2 ^ (64 * l.length) := by exact_mod_cast hvB
        omega
  rw [hsplit]
  constructor
  · intro hne
    have : natVal l / 2 ^ (64 * l.length - 1) ≠ 0 := by
      simpa using hne
    have := Nat.pos_of_ne_zero this
    exact (Nat.le_div_iff_mul_le (Nat.pos_pow_of_pos _ (by norm_num))).mp this
      |> fun hx => by omega
  · intro hle
    have : 1 ≤ natVal l / 2 ^ (64 * l.length - 1) :=
      (Nat.le_div_iff_mul_le (Nat.pos_pow_of_pos _ (by norm_num))).mpr (by omega)
    simpa using (by omega : natVal l / 2 ^ (64 * l.length - 1) ≠ 0)

theorem bint_toInt_fromInt {n : Nat} (h : 1 ≤ n) {s : Int}
    (hlo : -((2 : Int) ^ (64 * n - 1)) ≤ s) (hhi : s < 2 ^ (64 * n - 1)) :
    bint.toInt (bint.fromInt n s) = s ∧ valid (bint.fromInt n s) ∧
      (bint.fromInt n s).length = n := by
  have hM : (2 : Int) ^ (64 * n) = 2 ^ (64 * n - 1) * 2 := by
    rw [← pow_succ]
    congr 1
    omega
  have hMpos : (0 : Int) < 2 ^ (64 * n) := by positivity
  have hPpos : (0 : Int) < 2 ^ (64 * n - 1) := by positivity
  have hm0 : (0 : Int) ≤ s % 2 ^ (64 * n) := Int.emod_nonneg s (by omega)
  have hm1 : s % 2 ^ (64 * n) < 2 ^ (64 * n) := Int.emod_lt_of_pos s hMpos
  have ht : ((s % 2 ^ (64 * n)).toNat : Int) = s % 2 ^ (64 * n) :=
    Int.toNat_of_nonneg hm0
  have htlt : (s % 2 ^ (64 * n)).toNat < 2 ^ (64 * n) := by
    have : ((2 : Nat) ^ (64 * n) : Int) = (2 : Int) ^ (64 * n) := by push_cast; ring
    omega
  have hval : natVal (bint.fromInt n s) = (s % 2 ^ (64 * n)).toNat :=
    natVal_fromNat htlt
  have hlen : (bint.fromInt n s).length = n := length_fromNat _ _
  refine ⟨?_, valid_fromNat _ _, hlen⟩
  unfold bint.toInt
  rw [hlen, hval]
  have hcast : ((2 : Nat) ^ (64 * n - 1) : Int) = (2 : Int) ^ (64 * n - 1) := by
    push_cast
    ring
  by_cases hs : 0 ≤ s
  · have hsmod : s % 2 ^ (64 * n) = s := by
      apply Int.emod_eq_of_lt hs
      omega
    rw [if_pos (by omega)]
    omega
  · push_neg at hs
    have hsmod : s % 2 ^ (64 * n) = s + 2 ^ (64 * n) := by
      have hmm : (s + 2 ^ (64 * n)) % 2 ^ (64 * n) = s % 2 ^ (64 * n) := by
        rw [show s + 2 ^ (64 * n) = s + 2 ^ (64 * n) * 1 from by ring,
          Int.add_mul_emod_self_left]
      rw [← hmm]
      apply Int.emod_eq_of_lt (by omega) (by omega)
    rw [if_neg (by omega)]
    have hcastM : ((2 : Nat) ^ (64 * n) : Int) = (2 : Int) ^ (64 * n) := by
      push_cast
      ring
    omega

theorem sat_overflow_value {a : List Nat} {n : Nat} (hva : valid a)
    (hla : a.length = n) (hn : 1 ≤ n) :
    bint.toInt (if bint.is_negative a then bint.MIN a.length else bint.MAX a.length)
      = if bint.toInt a < 0 then -((2 : Int) ^ (64 * n - 1))
        else (2 : Int) ^ (64 * n - 1) - 1 := by
  have hn' : 1 ≤ a.length := by omega
  by_cases hneg : bint.toInt a < 0
  · rw [if_pos ((bint_is_negative_iff hva hn').mpr hneg), hla,
      bint_toInt_MIN hn, if_pos hneg]
  · have hno : ¬(bint.is_negative a = true) := fun hc =>
      hneg ((bint_is_negative_iff hva hn').mp hc)
    rw [if_neg hno, hla, bint_toInt_MAX hn, if_neg hneg]

/-- C5: `BInt::saturating_add` and `BInt::saturating_sub` compute the exact
integer sum/difference clamped to `[MIN, MAX]`; on overflow the bound is
`MIN` when the left operand is negative, `MAX` otherwise, which matches the
mathematical direction of the overflow. -/
theorem c5_saturating_add_sub (a b : List Nat) (n : Nat) (hva : valid a)
    (hvb : valid b) (hla : a.length = n) (hlb : b.length = n) (hn : 1 ≤ n) :
    bint.toInt (bint.saturating_add a b)
      = max (-((2 : Int) ^ (64 * n - 1)))
          (min (bint.toInt a + bint.toInt b) ((2 : Int) ^ (64 * n - 1) - 1)) ∧
    bint.toInt (bint.saturating_sub a b)
      = max (-((2 : Int) ^ (64 * n - 1)))
          (min (bint.toInt a - bint.toInt b) ((2 : Int) ^ (64 * n - 1) - 1)) := by
  have hPpos : (0 : Int) < 2 ^ (64 * n - 1) := by positivity
  obtain ⟨halo, hahi⟩ := bint_toInt_bounds hva (by omega)
  obtain ⟨hblo, hbhi⟩ := bint_toInt_bounds hvb (by omega)
  rw [hla] at halo hahi
  rw [hlb] at hblo hbhi
  constructor
  · -- saturating_add
    by_cases hin : -((2 : Int) ^ (64 * n - 1)) ≤ bint.toInt a + bint.toInt b ∧
        bint.toInt a + bint.toInt b < 2 ^ (64 * n - 1)
    · have hch : bint.checked_add a b
          = some (bint.fromInt n (bint.toInt a + bint.toInt b)) := by
        unfold bint.checked_add
        rw [hla, if_pos hin]
      obtain ⟨hti, _, _⟩ := bint_toInt_fromInt hn hin.1 hin.2
      simp only [bint.saturating_add, hch]
      rw [hti, min_eq_left (by omega), max_eq_right (by omega)]
    · have hch : bint.checked_add a b = none := by
        unfold bint.checked_add
        rw [hla, if_neg hin]
      simp only [bint.saturating_add, hch]
      rw [sat_overflow_value hva hla hn]
      rcases not_and_or.mp hin with hlt | hge
      · push_neg at hlt
        rw [if_pos (by omega), min_eq_left (by omega), max_eq_left (by omega)]
      · push_neg at hge
        rw [if_neg (by omega), min_eq_right (by omega), max_eq_right (by omega)]
  · -- saturating_sub
    by_cases hin : -((2 : Int) ^ (64 * n - 1)) ≤ bint.toInt a - bint.toInt b ∧
        bint.toInt a - bint.toInt b < 2 ^ (64 * n - 1)
    · have hch : bint.checked_sub a b
          = some (bint.fromInt n (bint.toInt a - bint.toInt b)) := by
        unfold bint.checked_sub
        rw [hla, if_pos hin]
      obtain ⟨hti, _, _⟩ := bint_toInt_fromInt hn hin.1 hin.2
      simp only [bint.saturating_sub, hch]
      rw [hti, min_eq_left (by omega), max_eq_right (by omega)]
    · have hch : bint.checked_sub a b = none := by
        unfold bint.checked_sub
        rw [hla, if_neg hin]
      simp only [bint.saturating_sub, hch]
      rw [sat_overflow_value hva hla hn]
      rcases not_and_or.mp hin with hlt | hge
      · push_neg at hlt
        rw [if_pos (by omega), min_eq_left (by omega), max_eq_left (by omega)]
      · push_neg at hge
        rw [if_neg (by omega), min_eq_right (by omega), max_eq_right (by omega)]

/-- C5 witness: at `N = 1`, `MIN + MIN` saturates to `MIN` and the clamp
formula agrees. -/
theorem c5_saturating_add_sub_witness :
    (valid [2 ^ 63] ∧ ([2 ^ 63] : List Nat).length = 1 ∧ 1 ≤ 1) ∧
      (bint.toInt (bint.saturating_add [2 ^ 63] [2 ^ 63])
        = max (-((2 : Int) ^ (64 * 1 - 1)))
            (min (bint.toInt [2 ^ 63] + bint.toInt [2 ^ 63])
              ((2 : Int) ^ (64 * 1 - 1) - 1)) ∧
       bint.toInt (bint.saturating_sub [2 ^ 63] [2 ^ 63])
        = max (-((2 : Int) ^ (64 * 1 - 1)))
            (min (bint.toInt [2 ^ 63] - bint.toInt [2 ^ 63])
              ((2 : Int) ^ (64 * 1 - 1) - 1))) :=
  ⟨⟨by decide, rfl, le_refl 1⟩,
    c5_saturating_add_sub [2 ^ 63] [2 ^ 63] 1 (by decide) (by decide) rfl rfl (le_refl 1)⟩

/-! ### Popcount and `is_power_of_two` -/

theorem pcAux_eq_zero : ∀ {f n : Nat}, n < 2 ^ f → (pcAux f n = 0 ↔ n = 0) := by
  intro f
  induction f with
  | zero =>
    intro n hn
    simp only [Nat.pow_zero, Nat.lt_one_iff] at hn
    subst hn
    simp [pcAux]
  | succ f ih =>
    intro n hn
    by_cases h0 : n = 0
    · subst h0
      simp [pcAux]
    · rw [pcAux, if_neg h0]
      have hn2 : n / 2 < 2 ^ f := by
        rw [Nat.div_lt_iff_lt_mul (by norm_num)]
        rw [Nat.pow_succ] at hn
        exact hn
      constructor
      · intro hz
        have h1 : n % 2 = 0 := by omega
        have h2 : pcAux f (n / 2) = 0 := by omega
        have := (ih hn2).mp h2
        omega
      · intro hc
        exact absurd hc h0

theorem pcAux_eq_one : ∀ {f n : Nat}, n < 2 ^ f →
    (pcAux f n = 1 ↔ ∃ r, n = 2 ^ r) := by
  intro f
  induction f with
  | zero =>
    intro n hn
    simp only [Nat.pow_zero, Nat.lt_one_iff] at hn
    subst hn
    constructor
    · intro hc
      simp [pcAux] at hc
    · rintro ⟨r, hr⟩
      exact absurd hr.symm (Nat.pos_iff_ne_zero.mp (Nat.pos_pow_of_pos r (by norm_num)))
  | succ f ih =>
    intro n hn
    by_cases h0 : n = 0
    · subst h0
      constructor
      · intro hc
        simp [pcAux] at hc
      · rintro ⟨r, hr⟩
        exact absurd hr.symm (Nat.pos_iff_ne_zero.mp (Nat.pos_pow_of_pos r (by norm_num)))
    · rw [pcAux, if_neg h0]
      have hn2 : n / 2 < 2 ^ f := by
        rw [Nat.div_lt_iff_lt_mul (by norm_num)]
        rw [Nat.pow_succ] at hn
        exact hn
      rcases Nat.mod_two_eq_zero_or_one n with he | ho
      · -- n even: the bit pattern is that of n / 2, shifted
        rw [he, Nat.zero_add]
        rw [ih hn2]
        constructor
        · rintro ⟨r, hr⟩
          refine ⟨r + 1, ?_⟩
          have : n = 2 * (n / 2) := by omega
          rw [this, hr, Nat.pow_succ']
        · rintro ⟨r, hr⟩
          cases r with
          | zero =>
            rw [hr] at he
            simp at he
          | succ r =>
            refine ⟨r, ?_⟩
            rw [hr, Nat.pow_succ']
            omega
      · -- n odd: exactly one more bit than n / 2
        rw [ho]
        constructor
        · intro h1
          have hz : pcAux f (n / 2) = 0 := by omega
          have := (pcAux_eq_zero hn2).mp hz
          refine ⟨0, ?_⟩
          omega
        · rintro ⟨r, hr⟩
          cases r with
          | zero =>
            have hn1 : n = 1 := by simpa using hr
            have : n / 2 = 0 := by omega
            rw [this]
            have : pcAux f 0 = 0 := (pcAux_eq_zero (Nat.pos_pow_of_pos f (by norm_num))).mpr rfl
            omega
          | succ r =>
            rw [hr, Nat.pow_succ'] at ho
            omega

theorem ipotAux_iff : ∀ (l : List Nat) (ones : Nat),
    ipotAux ones l = true ↔ ones + count_ones l = 1 := by
  intro l
  induction l with
  | nil =>
    intro ones
    rw [show count_ones [] = 0 from rfl, Nat.add_zero]
    simp [ipotAux]
  | cons d r ih =>
    intro ones
    rw [show count_ones (d :: r) = u64popcount d + count_ones r from rfl]
    rw [show ipotAux ones (d :: r)
        = if ones + u64popcount d > 1 then false
          else ipotAux (ones + u64popcount d) r from rfl]
    by_cases hgt : ones + u64popcount d > 1
    · rw [if_pos hgt]
      constructor
      · intro hc
        simp at hc
      · intro hc
        omega
    · rw [if_neg hgt, ih]
      omega

theorem count_ones_eq_zero {l : List Nat} (hv : valid l) :
    count_ones l = 0 ↔ natVal l = 0 := by
  induction l with
  | nil => simp [count_ones, natVal]
  | cons d r ih =>
    rcases valid_cons.mp hv with ⟨hd, hr⟩
    rw [show count_ones (d :: r) = u64popcount d + count_ones r from rfl,
      natVal_cons]
    have hpz := pcAux_eq_zero hd
    have := ih hr
    constructor
    · intro hz
      have h1 : u64popcount d = 0 := by omega
      have h2 : natVal r = 0 := by
        rw [← this]
        omega
      have hd0 : d = 0 := hpz.mp h1
      omega
    · intro hz
      have hd0 : d = 0 := by omega
      have hr0 : natVal r = 0 := by omega
      have h1 : u64popcount d = 0 := hpz.mpr hd0
      have h2 : count_ones r = 0 := this.mpr hr0
      omega

theorem count_ones_eq_one {l : List Nat} (hv : valid l) :
    count_ones l = 1 ↔ ∃ k, natVal l = 2 ^ k := by
  induction l with
  | nil =>
    constructor
    · intro hc
      simp [count_ones] at hc
    · rintro ⟨k, hk⟩
      exact absurd hk.symm
        (Nat.pos_iff_ne_zero.mp (Nat.pos_pow_of_pos k (by norm_num)))
  | cons d r ih =>
    rcases valid_cons.mp hv with ⟨hd, hr⟩
    rw [show count_ones (d :: r) = u64popcount d + count_ones r from rfl,
      natVal_cons]
    have ihr := ih hr
    constructor
    · intro h1
      rcases (show (u64popcount d = 1 ∧ count_ones r = 0)
          ∨ (u64popcount d = 0 ∧ count_ones r = 1) from by omega) with
        ⟨hp1, hc0⟩ | ⟨hp0, hc1⟩
      · obtain ⟨j, hj⟩ := (pcAux_eq_one hd).mp hp1
        have hr0 : natVal r = 0 := (count_ones_eq_zero hr).mp hc0
        exact ⟨j, by rw [hj, hr0]; ring⟩
      · have hd0 : d = 0 := (pcAux_eq_zero hd).mp hp0
        obtain ⟨k, hk⟩ := ihr.mp hc1
        refine ⟨64 + k, ?_⟩
        rw [hd0, hk, Nat.pow_add]
        ring
    · rintro ⟨k, hk⟩
      have hdchar : d = 2 ^ k % 2 ^ 64 := by
        rw [← hk, Nat.add_mul_mod_self_left, Nat.mod_eq_of_lt hd]
      have hrchar : natVal r = 2 ^ k / 2 ^ 64 := by
        rw [← hk, Nat.add_mul_div_left _ _ (Nat.pos_pow_of_pos _ (by norm_num)),
          Nat.div_eq_of_lt hd, Nat.zero_add]
      rcases Nat.lt_or_ge k 64 with hk64 | hk64
      · have hklt : (2 : Nat) ^ k < 2 ^ 64 :=
          Nat.pow_lt_pow_right (by norm_num) hk64
        have hd2 : d = 2 ^ k := by rw [hdchar, Nat.mod_eq_of_lt hklt]
        have hr2 : natVal r = 0 := by rw [hrchar, Nat.div_eq_of_lt hklt]
        have h1 : u64popcount d = 1 := (pcAux_eq_one hd).mpr ⟨k, hd2⟩
        have h2 : count_ones r = 0 := (count_ones_eq_zero hr).mpr hr2
        omega
      · have hsplit : (2 : Nat) ^ k = 2 ^ 64 * 2 ^ (k - 64) := by
          rw [← Nat.pow_add]
          congr 1
          omega
        have hd2 : d = 0 := by rw [hdchar, hsplit, Nat.mul_mod_right]
        have hr2 : natVal r = 2 ^ (k - 64) := by
          rw [hrchar, hsplit,
            Nat.mul_div_cancel_left _ (Nat.pos_pow_of_pos 64 (by norm_num))]
        have h1 : u64popcount d = 0 := (pcAux_eq_zero hd).mpr hd2
        have h2 : count_ones r = 1 := ihr.mpr ⟨k - 64, hr2⟩
        omega

theorem is_power_of_two_iff {l : List Nat} (hv : valid l) :
    is_power_of_two l = true ↔ ∃ k, natVal l = 2 ^ k := by
  rw [show is_power_of_two l = ipotAux 0 l from rfl, ipotAux_iff, Nat.zero_add]
  exact count_ones_eq_one hv

/-! ### Bit length, leading zeros and `bits` -/

theorem log2_eq_of {x m : Nat} (h1 : 2 ^ m ≤ x) (h2 : x < 2 ^ (m + 1)) :
    Nat.log2 x = m := by
  have hx : x ≠ 0 := by
    have : (0 : Nat) < 2 ^ m := Nat.pos_pow_of_pos _ (by norm_num)
    omega
  have ha : m ≤ Nat.log2 x := (Nat.le_log2 hx).mpr h1
  have hb : Nat.log2 x < m + 1 := (Nat.log2_lt hx).mpr h2
  omega

theorem blAux_le : ∀ (f n : Nat), blAux f n ≤ f := by
  intro f
  induction f with
  | zero => intro n; simp [blAux]
  | succ f ih =>
    intro n
    rw [blAux]
    by_cases h0 : n = 0
    · rw [if_pos h0]; omega
    · rw [if_neg h0]
      have := ih (n / 2)
      omega

theorem blAux_eq : ∀ {f n : Nat}, n < 2 ^ f →
    blAux f n = if n = 0 then 0 else Nat.log2 n + 1 := by
  intro f
  induction f with
  | zero =>
    intro n hn
    simp only [Nat.pow_zero, Nat.lt_one_iff] at hn
    subst hn
    simp [blAux]
  | succ f ih =>
    intro n hn
    by_cases h0 : n = 0
    · subst h0
      simp [blAux]
    · rw [blAux, if_neg h0, if_neg h0]
      have hn2 : n / 2 < 2 ^ f := by
        rw [Nat.div_lt_iff_lt_mul (by norm_num)]
        rw [Nat.pow_succ] at hn
        exact hn
      rw [ih hn2]
      by_cases h1 : n / 2 = 0
      · rw [if_pos h1]
        have hn1 : n = 1 := by omega
        rw [hn1]
        have hl1 : Nat.log2 1 = 0 := by
          have := (Nat.log2_lt (by norm_num : (1 : Nat) ≠ 0)).mpr
            (by norm_num : (1 : Nat) < 2 ^ 1)
          omega
        omega
      · rw [if_neg h1]
        have hge2 : 2 ≤ n := by omega
        have : Nat.log2 n = Nat.log2 (n / 2) + 1 := by
          conv_lhs => rw [Nat.log2]
          rw [if_pos hge2]
        omega

theorem bitLen_eq {n : Nat} (hn : n < 2 ^ 64) :
    bitLen n = if n = 0 then 0 else Nat.log2 n + 1 := blAux_eq hn

theorem bitLen_le_iff {n m : Nat} (hn : n < 2 ^ 64) (hm : m ≤ 64) :
    bitLen n ≤ m ↔ n < 2 ^ m := by
  rw [bitLen_eq hn]
  by_cases h0 : n = 0
  · subst h0
    rw [if_pos rfl]
    constructor
    · intro _
      exact Nat.pos_pow_of_pos m (by norm_num)
    · intro _
      exact Nat.zero_le m
  · rw [if_neg h0]
    constructor
    · intro h
      have : Nat.log2 n < m := by omega
      exact (Nat.log2_lt h0).mp this
    · intro h
      have : Nat.log2 n < m := (Nat.log2_lt h0).mpr h
      omega

theorem lzRun_eq : ∀ (m : List Nat), valid m →
    lzRun m = 64 * m.length -
      (if natVal m.reverse = 0 then 0 else Nat.log2 (natVal m.reverse) + 1) := by
  intro m
  induction m with
  | nil => simp [lzRun, natVal]
  | cons d t ih =>
    intro hv
    rcases valid_cons.mp hv with ⟨hd, ht⟩
    have hrevlen : t.reverse.length = t.length := List.length_reverse t
    have hval : natVal ((d :: t).reverse) = natVal t.reverse + 2 ^ (64 * t.length) * d := by
      rw [List.reverse_cons, natVal_append, hrevlen, natVal_cons, natVal_nil]
      ring
    have hvr : valid t.reverse := valid_reverse ht
    have hvrB : natVal t.reverse < 2 ^ (64 * t.length) := by
      have := natVal_lt hvr
      rwa [hrevlen] at this
    by_cases h0 : d = 0
    · have hval0 : natVal ((d :: t).reverse) = natVal t.reverse := by
        rw [hval, h0]
        ring
      rw [lzRun, if_pos h0, ih ht, hval0, List.length_cons]
      have hble : (if natVal t.reverse = 0 then 0 else Nat.log2 (natVal t.reverse) + 1)
          ≤ 64 * t.length := by
        by_cases hz : natVal t.reverse = 0
        · rw [if_pos hz]; omega
        · rw [if_neg hz]
          have : Nat.log2 (natVal t.reverse) < 64 * t.length :=
            (Nat.log2_lt hz).mpr hvrB
          omega
      omega
    · rw [lzRun, if_neg h0]
      have hvne : natVal ((d :: t).reverse) ≠ 0 := by
        rw [hval]
        have h1 : 0 < 2 ^ (64 * t.length) * d :=
          Nat.mul_pos (Nat.pos_pow_of_pos _ (by norm_num)) (Nat.pos_of_ne_zero h0)
        omega
      have hlog : Nat.log2 (natVal ((d :: t).reverse)) = 64 * t.length + Nat.log2 d := by
        apply log2_eq_of
        · rw [hval]
          calc 2 ^ (64 * t.length + Nat.log2 d)
              = 2 ^ (64 * t.length) * 2 ^ Nat.log2 d := by rw [Nat.pow_add]
          _ ≤ 2 ^ (64 * t.length) * d :=
              Nat.mul_le_mul_left _ (Nat.log2_self_le h0)
          _ ≤ natVal t.reverse + 2 ^ (64 * t.length) * d := by omega
        · rw [hval]
          have hdlt : d < 2 ^ (Nat.log2 d + 1) := (Nat.log2_lt h0).mp (by omega)
          calc natVal t.reverse + 2 ^ (64 * t.length) * d
              < 2 ^ (64 * t.length) + 2 ^ (64 * t.length) * d := by omega
          _ = 2 ^ (64 * t.length) * (d + 1) := by ring
          _ ≤ 2 ^ (64 * t.length) * 2 ^ (Nat.log2 d + 1) :=
              Nat.mul_le_mul_left _ (by omega)
          _ = 2 ^ (64 * t.length + (Nat.log2 d + 1)) := by rw [← Nat.pow_add]
          _ = 2 ^ (64 * t.length + Nat.log2 d + 1) := rfl
      rw [if_neg hvne, hlog, List.length_cons]
      unfold u64lz
      rw [bitLen_eq hd, if_neg h0]
      have hld : Nat.log2 d < 64 := (Nat.log2_lt h0).mpr hd
      omega

theorem bits_eq {l : List Nat} (hv : valid l) :
    bits l = if natVal l = 0 then 0 else Nat.log2 (natVal l) + 1 := by
  unfold bits leading_zeros
  rw [lzRun_eq l.reverse (valid_reverse hv), List.reverse_reverse,
    List.length_reverse]
  have hb : (if natVal l = 0 then 0 else Nat.log2 (natVal l) + 1) ≤ 64 * l.length := by
    by_cases hz : natVal l = 0
    · rw [if_pos hz]; omega
    · rw [if_neg hz]
      have : Nat.log2 (natVal l) < 64 * l.length := (Nat.log2_lt hz).mpr (natVal_lt hv)
      omega
  omega

/-- C9: for `p < BITS`, `power_of_two p` is the value `2^p` — a single set
bit at index `p` — so `bit` at `p` is set, `is_power_of_two` holds, and
`bits` is `p + 1`. -/
theorem c9_power_of_two (n p : Nat) (h : p < 64 * n) :
    natVal (power_of_two n p) = 2 ^ p ∧
    bit (power_of_two n p) p = true ∧
    is_power_of_two (power_of_two n p) = true ∧
    bits (power_of_two n p) = p + 1 := by
  obtain ⟨hds, hbs⟩ := shift_decompose p
  have hdn : p / 64 < n := by omega
  have hdig : (1 : Nat) <<< (p &&& 63) = 2 ^ (p % 64) := by
    rw [hbs, Nat.shiftLeft_eq, Nat.one_mul]
  have hvp : valid (power_of_two n p) := by
    unfold power_of_two
    apply valid_set (valid_replicate (by norm_num) n)
    rw [hdig]
    exact Nat.pow_lt_pow_right (by norm_num) (by omega)
  have hval : natVal (power_of_two n p) = 2 ^ p := by
    unfold power_of_two
    rw [hds, natVal_set_replicate (by omega), hdig, ← Nat.pow_add]
    congr 1
    omega
  refine ⟨hval, ?_, ?_, ?_⟩
  · rw [bit_testBit hvp, hval, Nat.testBit_two_pow_self]
  · exact (is_power_of_two_iff hvp).mpr ⟨p, hval⟩
  · rw [bits_eq hvp, hval,
      if_neg (Nat.pos_iff_ne_zero.mp (Nat.pos_pow_of_pos p (by norm_num))),
      Nat.log2_two_pow]

/-- C9 witness (the width-128 example from the repository's tests:
`power_of_two 78` has 79 bits). -/
theorem c9_power_of_two_witness :
    78 < 64 * 2 ∧
      (natVal (power_of_two 2 78) = 2 ^ 78 ∧
        bit (power_of_two 2 78) 78 = true ∧
        is_power_of_two (power_of_two 2 78) = true ∧
        bits (power_of_two 2 78) = 78 + 1) :=
  ⟨by norm_num, c9_power_of_two 2 78 (by norm_num)⟩

/-! ### `last_digit_index` -/

theorem ldiAux_cases : ∀ (m : List Nat) (i idx : Nat),
    ldiAux i idx m = idx ∨
      (i ≤ ldiAux i idx m ∧ ldiAux i idx m < i + m.length) := by
  intro m
  induction m with
  | nil =>
    intro i idx
    exact Or.inl rfl
  | cons d r ih =>
    intro i idx
    rw [show ldiAux i idx (d :: r) = ldiAux (i + 1) (if d ≠ 0 then i else idx) r
      from rfl]
    rcases ih (i + 1) (if d ≠ 0 then i else idx) with heq | ⟨hge, hlt⟩
    · by_cases hd : d ≠ 0
      · rw [if_pos hd] at heq
        right
        rw [if_pos hd, heq]
        simp
      · rw [if_neg hd] at heq
        rw [if_neg hd]
        exact Or.inl heq
    · right
      refine ⟨by omega, ?_⟩
      rw [List.length_cons]
      omega

theorem ldiAux_ge : ∀ (m : List Nat) (i idx j : Nat), j < m.length →
    m.getD j 0 ≠ 0 → i + j ≤ ldiAux i idx m := by
  intro m
  induction m with
  | nil =>
    intro i idx j hj
    simp at hj
  | cons d r ih =>
    intro i idx j hj hne
    rw [show ldiAux i idx (d :: r) = ldiAux (i + 1) (if d ≠ 0 then i else idx) r
      from rfl]
    cases j with
    | zero =>
      rw [List.getD_cons_zero] at hne
      rw [if_pos hne, Nat.add_zero]
      rcases ldiAux_cases r (i + 1) i with heq | ⟨hge, _⟩
      · omega
      · omega
    | succ j =>
      rw [List.getD_cons_succ] at hne
      rw [List.length_cons] at hj
      have := ih (i + 1) (if d ≠ 0 then i else idx) j (by omega) hne
      omega

theorem ldiAux_nonzero : ∀ (m : List Nat) (i idx : Nat),
    ldiAux i idx m = idx ∨
      (∃ j, j < m.length ∧ i + j = ldiAux i idx m ∧ m.getD j 0 ≠ 0) := by
  intro m
  induction m with
  | nil =>
    intro i idx
    exact Or.inl rfl
  | cons d r ih =>
    intro i idx
    rw [show ldiAux i idx (d :: r) = ldiAux (i + 1) (if d ≠ 0 then i else idx) r
      from rfl]
    rcases ih (i + 1) (if d ≠ 0 then i else idx) with heq | ⟨j, hj, hij, hne⟩
    · by_cases hd : d ≠ 0
      · rw [if_pos hd] at heq
        right
        rw [if_pos hd]
        refine ⟨0, by simp, by omega, ?_⟩
        rw [List.getD_cons_zero]
        exact hd
      · rw [if_neg hd] at heq
        rw [if_neg hd]
        exact Or.inl heq
    · right
      refine ⟨j + 1, ?_, by omega, by rwa [List.getD_cons_succ]⟩
      rw [List.length_cons]
      omega

theorem getD_drop (l : List Nat) : ∀ (k j : Nat),
    (l.drop k).getD j 0 = l.getD (k + j) 0 := by
  induction l with
  | nil =>
    intro k j
    simp
  | cons d r ih =>
    intro k j
    cases k with
    | zero =>
      rw [List.drop_zero, Nat.zero_add]
    | succ k =>
      rw [List.drop_succ_cons, ih k j,
        show k + 1 + j = (k + j) + 1 from by omega, List.getD_cons_succ]

theorem natVal_eq_zero_of_getD (m : List Nat)
    (h : ∀ j, m.getD j 0 = 0) : natVal m = 0 := by
  induction m with
  | nil => rfl
  | cons d r ih =>
    have hd : d = 0 := by
      have := h 0
      rwa [List.getD_cons_zero] at this
    have hr : natVal r = 0 := by
      apply ih
      intro j
      have := h (j + 1)
      rwa [List.getD_cons_succ] at this
    rw [natVal_cons, hd, hr]
    ring

theorem ldi_lt_length {l : List Nat} (h : 1 ≤ l.length) :
    last_digit_index l < l.length := by
  unfold last_digit_index
  rcases ldiAux_cases (l.drop 1) 1 0 with heq | ⟨_, hlt⟩
  · omega
  · rw [List.length_drop] at hlt
    omega

theorem ldi_above_zero {l : List Nat} {j : Nat}
    (hj : last_digit_index l < j) : l.getD j 0 = 0 := by
  by_contra hne
  rcases Nat.lt_or_ge j l.length with hjlen | hjlen
  · have hj1 : 1 ≤ j := by omega
    have hd : (l.drop 1).getD (j - 1) 0 ≠ 0 := by
      rw [getD_drop, show 1 + (j - 1) = j from by omega]
      exact hne
    have hlen : j - 1 < (l.drop 1).length := by
      rw [List.length_drop]
      omega
    have := ldiAux_ge (l.drop 1) 1 0 (j - 1) hlen hd
    unfold last_digit_index at hj
    omega
  · exact hne (List.getD_eq_default _ _ hjlen)

theorem ldi_self_nonzero (l : List Nat) :
    last_digit_index l = 0 ∨ l.getD (last_digit_index l) 0 ≠ 0 := by
  unfold last_digit_index
  rcases ldiAux_nonzero (l.drop 1) 1 0 with heq | ⟨j, hj, hij, hne⟩
  · exact Or.inl heq
  · right
    rw [← hij, ← getD_drop l 1 j]
    exact hne

theorem ldi_val {l : List Nat} (hv : valid l) (h1 : 1 ≤ l.length) :
    natVal l < 2 ^ (64 * (last_digit_index l + 1)) ∧
    l.getD (last_digit_index l) 0 = natVal l / 2 ^ (64 * last_digit_index l) := by
  have hL := ldi_lt_length h1
  have hdropz : natVal (l.drop (last_digit_index l + 1)) = 0 := by
    apply natVal_eq_zero_of_getD
    intro j
    rw [getD_drop]
    exact ldi_above_zero (by omega)
  have hdec := natVal_take_drop l (last_digit_index l + 1) (by omega)
  rw [hdropz, Nat.mul_zero, Nat.add_zero] at hdec
  have htake : natVal (l.take (last_digit_index l + 1))
      < 2 ^ (64 * (last_digit_index l + 1)) := by
    have := natVal_lt (valid_take hv (last_digit_index l + 1))
    rwa [List.length_take, Nat.min_eq_left (by omega)] at this
  have hbound : natVal l < 2 ^ (64 * (last_digit_index l + 1)) := by
    rw [hdec]
    exact htake
  refine ⟨hbound, ?_⟩
  rw [getD_natVal hv]
  apply Nat.mod_eq_of_lt
  rw [Nat.div_lt_iff_lt_mul (Nat.pos_pow_of_pos _ (by norm_num))]
  calc natVal l < 2 ^ (64 * (last_digit_index l + 1)) := hbound
  _ = 2 ^ 64 * 2 ^ (64 * last_digit_index l) := by
      rw [← Nat.pow_add]
      congr 1
      omega

/-! ### C1: `checked_next_power_of_two` -/

theorem getD_lt_of_valid {l : List Nat} (hv : valid l) (i : Nat) :
    l.getD i 0 < 2 ^ 64 := by
  rw [getD_natVal hv]
  exact Nat.mod_lt _ (Nat.pos_pow_of_pos _ (by norm_num))

/-- C1 counterexample: `x = 2^63` at `N = 1` satisfies the claim's overflow
condition (its most significant nonzero digit is a lone set bit at the top
of its digit and it is the last digit), yet the code returns
`Some x`, not `None`, because `x` is already a power of two. -/
theorem c1_next_power_counterexample :
    claimC1OverflowCond [2 ^ 63] ∧
      uint.checked_next_power_of_two [2 ^ 63] = some [2 ^ 63] := by decide

/-- C1 amended: `checked_next_power_of_two` returns `None` exactly when `x`
is not a power of two and `x > 2^(BITS-1)` (equivalently: the top bit of the
most significant digit is set, that digit is the last one, and `x` is not
itself a power of two); when it returns `Some`, the result is `x` itself if
`x` is a power of two, `1` if `x = 0`, and otherwise the value with the
single set bit immediately above the highest set bit of `x`. -/
theorem c1_next_power_amended (l : List Nat) (hv : valid l) (hn : 1 ≤ l.length) :
    (uint.checked_next_power_of_two l = none
        ↔ (is_power_of_two l = false ∧ 2 ^ (64 * l.length - 1) ≤ natVal l)) ∧
    (∀ w, uint.checked_next_power_of_two l = some w →
        valid w ∧ w.length = l.length ∧
        natVal w = if is_power_of_two l = true then natVal l
          else if natVal l = 0 then 1
          else 2 ^ (Nat.log2 (natVal l) + 1)) := by
  by_cases hpow : is_power_of_two l = true
  · have hres : uint.checked_next_power_of_two l = some l := by
      unfold uint.checked_next_power_of_two
      rw [if_pos hpow]
    constructor
    · rw [hres]
      constructor
      · intro hc
        simp at hc
      · rintro ⟨hf, _⟩
        rw [hpow] at hf
        simp at hf
    · intro w hw
      rw [hres, Option.some.injEq] at hw
      subst hw
      exact ⟨hv, rfl, by rw [if_pos hpow]⟩
  · have hpow' : is_power_of_two l = false := Bool.eq_false_iff.mpr hpow
    have hL := ldi_lt_length hn
    obtain ⟨hvb, hdchar⟩ := ldi_val hv hn
    have hdlt := getD_lt_of_valid hv (last_digit_index l)
    have hvge : 2 ^ (64 * last_digit_index l) * l.getD (last_digit_index l) 0
        ≤ natVal l := by
      rw [hdchar, Nat.mul_comm]
      exact Nat.div_mul_le_self _ _
    by_cases hlz : u64lz (l.getD (last_digit_index l) 0) = 0
    · -- the top bit of the msd is set
      have hd63 : 2 ^ 63 ≤ l.getD (last_digit_index l) 0 := by
        have hlzb := hlz
        unfold u64lz bitLen at hlzb
        have hble := blAux_le 64 (l.getD (last_digit_index l) 0)
        by_contra hc
        push_neg at hc
        have hb := (bitLen_le_iff hdlt (by norm_num : (63 : Nat) ≤ 64)).mpr hc
        unfold bitLen at hb
        omega
      have hvlow : 2 ^ (64 * last_digit_index l + 63) ≤ natVal l := by
        calc 2 ^ (64 * last_digit_index l + 63)
            = 2 ^ (64 * last_digit_index l) * 2 ^ 63 := by rw [Nat.pow_add]
        _ ≤ 2 ^ (64 * last_digit_index l) * l.getD (last_digit_index l) 0 :=
            Nat.mul_le_mul_left _ hd63
        _ ≤ natVal l := hvge
      by_cases hLtop : last_digit_index l = l.length - 1
      · have hres : uint.checked_next_power_of_two l = none := by
          unfold uint.checked_next_power_of_two
          rw [if_neg hpow, if_pos hlz, if_pos hLtop]
        constructor
        · rw [hres]
          constructor
          · intro _
            refine ⟨hpow', ?_⟩
            have hexp : 64 * last_digit_index l + 63 = 64 * l.length - 1 := by
              omega
            rwa [hexp] at hvlow
          · intro _
            rfl
        · intro w hw
          rw [hres] at hw
          simp at hw
      · have hL1 : last_digit_index l + 1 < l.length := by omega
        have hres : uint.checked_next_power_of_two l
            = some ((List.replicate l.length 0).set (last_digit_index l + 1) 1) := by
          unfold uint.checked_next_power_of_two
          rw [if_neg hpow, if_pos hlz, if_neg hLtop]
        have hwval : natVal ((List.replicate l.length 0).set (last_digit_index l + 1) 1)
            = 2 ^ (64 * (last_digit_index l + 1)) := by
          rw [natVal_set_replicate hL1, Nat.one_mul]
        have hvne : natVal l ≠ 0 := by
          have : (0 : Nat) < 2 ^ (64 * last_digit_index l + 63) :=
            Nat.pos_pow_of_pos _ (by norm_num)
          omega
        have hlogv : Nat.log2 (natVal l) = 64 * last_digit_index l + 63 := by
          apply log2_eq_of hvlow
          have hexp : 64 * last_digit_index l + 63 + 1 = 64 * (last_digit_index l + 1) := by
            ring
          rw [hexp]
          exact hvb
        constructor
        · rw [hres]
          constructor
          · intro hc
            simp at hc
          · rintro ⟨_, hge⟩
            have hlt : natVal l < 2 ^ (64 * l.length - 1) := by
              calc natVal l < 2 ^ (64 * (last_digit_index l + 1)) := hvb
              _ ≤ 2 ^ (64 * l.length - 1) :=
                  Nat.pow_le_pow_right (by norm_num) (by omega)
            omega
        · intro w hw
          rw [hres, Option.some.injEq] at hw
          subst hw
          refine ⟨valid_set (valid_replicate (by norm_num) _) (by norm_num) _,
            by rw [List.length_set, List.length_replicate], ?_⟩
          rw [if_neg (by rw [hpow']; simp), if_neg hvne, hwval, hlogv]
          rfl
    · -- the msd has leading zeros
      have hbl63 : bitLen (l.getD (last_digit_index l) 0) ≤ 63 := by
        have hlzb := hlz
        unfold u64lz bitLen at hlzb
        have hble := blAux_le 64 (l.getD (last_digit_index l) 0)
        unfold bitLen
        omega
      have hd63 : l.getD (last_digit_index l) 0 < 2 ^ 63 :=
        (bitLen_le_iff hdlt (by norm_num)).mp hbl63
      have hshift : 64 - u64lz (l.getD (last_digit_index l) 0)
          = bitLen (l.getD (last_digit_index l) 0) := by
        unfold u64lz bitLen
        have := blAux_le 64 (l.getD (last_digit_index l) 0)
        omega
      have hdig : (1 : Nat) <<< (64 - u64lz (l.getD (last_digit_index l) 0))
          = 2 ^ bitLen (l.getD (last_digit_index l) 0) := by
        rw [hshift, Nat.shiftLeft_eq, Nat.one_mul]
      have hres : uint.checked_next_power_of_two l
          = some ((List.replicate l.length 0).set (last_digit_index l)
              (1 <<< (64 - u64lz (l.getD (last_digit_index l) 0)))) := by
        unfold uint.checked_next_power_of_two
        rw [if_neg hpow, if_neg hlz]
      have hwval : natVal ((List.replicate l.length 0).set (last_digit_index l)
            (1 <<< (64 - u64lz (l.getD (last_digit_index l) 0))))
          = 2 ^ (64 * last_digit_index l + bitLen (l.getD (last_digit_index l) 0)) := by
        rw [natVal_set_replicate hL, hdig, ← Nat.pow_add]
        congr 1
        ring
      have hwvalid : valid ((List.replicate l.length 0).set (last_digit_index l)
            (1 <<< (64 - u64lz (l.getD (last_digit_index l) 0)))) := by
        apply valid_set (valid_replicate (by norm_num) _)
        rw [hdig]
        exact Nat.pow_lt_pow_right (by norm_num) (by omega)
      have hwlen : ((List.replicate l.length 0).set (last_digit_index l)
            (1 <<< (64 - u64lz (l.getD (last_digit_index l) 0)))).length = l.length := by
        rw [List.length_set, List.length_replicate]
      by_cases hd0 : l.getD (last_digit_index l) 0 = 0
      · -- the whole value is zero
        have hL0 : last_digit_index l = 0 := by
          rcases ldi_self_nonzero l with h0 | hne
          · exact h0
          · exact absurd hd0 hne
        have hv0 : natVal l = 0 := by
          have hch := hdchar
          rw [hL0] at hch hd0
          rw [Nat.mul_zero, Nat.pow_zero, Nat.div_one] at hch
          omega
        have hbl0 : bitLen (l.getD (last_digit_index l) 0) = 0 := by
          rw [hd0]
          rfl
        constructor
        · rw [hres]
          constructor
          · intro hc
            simp at hc
          · rintro ⟨_, hge⟩
            rw [hv0] at hge
            have : (0 : Nat) < 2 ^ (64 * l.length - 1) :=
              Nat.pos_pow_of_pos _ (by norm_num)
            omega
        · intro w hw
          rw [hres, Option.some.injEq] at hw
          subst hw
          refine ⟨hwvalid, hwlen, ?_⟩
          rw [if_neg (by rw [hpow']; simp), if_pos hv0, hwval, hbl0, hL0]
          norm_num
      · -- nonzero value: the next power sits just above the highest set bit
        have hdpos : 0 < 2 ^ (64 * last_digit_index l)
            * l.getD (last_digit_index l) 0 :=
          Nat.mul_pos (Nat.pos_pow_of_pos _ (by norm_num)) (Nat.pos_of_ne_zero hd0)
        have hvne : natVal l ≠ 0 := by omega
        have hvsplit : natVal l = natVal (l.take (last_digit_index l))
            + 2 ^ (64 * last_digit_index l) * l.getD (last_digit_index l) 0 := by
          have hdec := natVal_take_drop l (last_digit_index l) (by omega)
          rw [natVal_drop hv _ (by omega), ← hdchar] at hdec
          exact hdec
        have htakeb : natVal (l.take (last_digit_index l))
            < 2 ^ (64 * last_digit_index l) := by
          have := natVal_lt (valid_take hv (last_digit_index l))
          rwa [List.length_take, Nat.min_eq_left (by omega)] at this
        have hvub : natVal l
            < 2 ^ (64 * last_digit_index l + Nat.log2 (l.getD (last_digit_index l) 0) + 1) := by
          have hdub : l.getD (last_digit_index l) 0
              < 2 ^ (Nat.log2 (l.getD (last_digit_index l) 0) + 1) :=
            (Nat.log2_lt hd0).mp (Nat.lt_succ_self _)
          calc natVal l
              = natVal (l.take (last_digit_index l))
                + 2 ^ (64 * last_digit_index l) * l.getD (last_digit_index l) 0 := hvsplit
          _ < 2 ^ (64 * last_digit_index l)
                + 2 ^ (64 * last_digit_index l) * l.getD (last_digit_index l) 0 := by omega
          _ = 2 ^ (64 * last_digit_index l) * (l.getD (last_digit_index l) 0 + 1) := by ring
          _ ≤ 2 ^ (64 * last_digit_index l)
                * 2 ^ (Nat.log2 (l.getD (last_digit_index l) 0) + 1) :=
              Nat.mul_le_mul_left _ (by omega)
          _ = 2 ^ (64 * last_digit_index l
                + (Nat.log2 (l.getD (last_digit_index l) 0) + 1)) := by rw [← Nat.pow_add]
          _ = 2 ^ (64 * last_digit_index l
                + Nat.log2 (l.getD (last_digit_index l) 0) + 1) := rfl
        have hlogv : Nat.log2 (natVal l)
            = 64 * last_digit_index l + Nat.log2 (l.getD (last_digit_index l) 0) := by
          apply log2_eq_of
          · calc 2 ^ (64 * last_digit_index l + Nat.log2 (l.getD (last_digit_index l) 0))
                = 2 ^ (64 * last_digit_index l)
                  * 2 ^ Nat.log2 (l.getD (last_digit_index l) 0) := by rw [Nat.pow_add]
            _ ≤ 2 ^ (64 * last_digit_index l) * l.getD (last_digit_index l) 0 :=
                Nat.mul_le_mul_left _ (Nat.log2_self_le hd0)
            _ ≤ natVal l := hvge
          · exact hvub
        have hbld : bitLen (l.getD (last_digit_index l) 0)
            = Nat.log2 (l.getD (last_digit_index l) 0) + 1 := by
          rw [bitLen_eq hdlt, if_neg hd0]
        constructor
        · rw [hres]
          constructor
          · intro hc
            simp at hc
          · rintro ⟨_, hge⟩
            have hld62 : Nat.log2 (l.getD (last_digit_index l) 0) ≤ 62 := by
              have := (Nat.log2_lt hd0).mpr hd63
              omega
            have hlt : natVal l < 2 ^ (64 * l.length - 1) := by
              calc natVal l
                  < 2 ^ (64 * last_digit_index l
                      + Nat.log2 (l.getD (last_digit_index l) 0) + 1) := hvub
              _ ≤ 2 ^ (64 * l.length - 1) :=
                  Nat.pow_le_pow_right (by norm_num) (by omega)
            omega
        · intro w hw
          rw [hres, Option.some.injEq] at hw
          subst hw
          refine ⟨hwvalid, hwlen, ?_⟩
          rw [if_neg (by rw [hpow']; simp), if_neg hvne, hwval, hlogv, hbld]
          rfl

/-- C1 witness for the amended statement, at `x = 5` (one digit). -/
theorem c1_next_power_amended_witness :
    (valid [5] ∧ 1 ≤ ([5] : List Nat).length) ∧
      ((uint.checked_next_power_of_two [5] = none
          ↔ (is_power_of_two [5] = false ∧ 2 ^ (64 * ([5] : List Nat).length - 1) ≤ natVal [5])) ∧
        (∀ w, uint.checked_next_power_of_two [5] = some w →
          valid w ∧ w.length = ([5] : List Nat).length ∧
          natVal w = if is_power_of_two [5] = true then natVal [5]
            else if natVal [5] = 0 then 1
            else 2 ^ (Nat.log2 (natVal [5]) + 1))) :=
  ⟨⟨by decide, by decide⟩, c1_next_power_amended [5] (by decide) (by decide)⟩

/-! ### Trailing zeros, `is_zero`, and the right-shift loop (towards `gcd`) -/

theorem tzAux_spec : ∀ (f d : Nat), d ≠ 0 → d < 2 ^ f →
    2 ^ tzAux f d ∣ d ∧ d / 2 ^ tzAux f d % 2 = 1 ∧ tzAux f d < f := by
  intro f
  induction f with
  | zero => intro d hd hlt; omega
  | succ f ih =>
    intro d hd hlt
    by_cases ho : d % 2 = 1
    · rw [tzAux, if_pos ho]
      exact ⟨Nat.one_dvd d, by simpa using ho, Nat.succ_pos f⟩
    · rw [tzAux, if_neg ho]
      have hd2 : d / 2 ≠ 0 := by omega
      have hlt2 : d / 2 < 2 ^ f := by
        rw [Nat.pow_succ] at hlt; omega
      obtain ⟨h1, h2, h3⟩ := ih (d / 2) hd2 hlt2
      set t := tzAux f (d / 2) with htdef
      have hdev : 2 * (d / 2) = d := by omega
      refine ⟨?_, ?_, by omega⟩
      · rw [Nat.pow_succ, Nat.mul_comm (2 ^ t) 2, ← hdev]
        exact Nat.mul_dvd_mul_left 2 h1
      · rw [Nat.pow_succ, Nat.mul_comm (2 ^ t) 2, ← hdev,
          Nat.mul_div_mul_left _ _ (by norm_num)]
        exact h2

theorem trailing_zeros_spec : ∀ (l : List Nat), valid l → natVal l ≠ 0 →
    2 ^ trailing_zeros l ∣ natVal l ∧
    natVal l / 2 ^ trailing_zeros l % 2 = 1 ∧
    trailing_zeros l < 64 * l.length := by
  intro l
  induction l with
  | nil => intro _ h; exact absurd rfl h
  | cons d r ih =>
    intro hv hnz
    rcases valid_cons.mp hv with ⟨hd, hr⟩
    by_cases hdz : d = 0
    · subst hdz
      rw [trailing_zeros, if_pos rfl]
      have hrz : natVal r ≠ 0 := by
        intro h0
        apply hnz
        rw [natVal_cons, h0]
        simp
      obtain ⟨h1, h2, h3⟩ := ih hr hrz
      have hval : natVal (0 :: r) = 2 ^ 64 * natVal r := by
        rw [natVal_cons, Nat.zero_add]
      refine ⟨?_, ?_, ?_⟩
      · rw [hval, Nat.pow_add]
        exact Nat.mul_dvd_mul (dvd_refl _) h1
      · rw [hval, Nat.pow_add,
          Nat.mul_div_mul_left _ _ (Nat.pos_pow_of_pos 64 (by norm_num))]
        exact h2
      · rw [List.length_cons]; omega
    · rw [trailing_zeros, if_neg hdz,
        show u64tz d = tzAux 64 d from rfl]
      obtain ⟨h1, h2, h3⟩ := tzAux_spec 64 d hdz hd
      set t := tzAux 64 d with ht
      obtain ⟨c, hc⟩ := h1
      have hq : natVal (d :: r) / 2 ^ t = c + 2 ^ (64 - t) * natVal r := by
        rw [natVal_cons, hc,
          show (2 : Nat) ^ 64 = 2 ^ t * 2 ^ (64 - t) from by
            rw [← Nat.pow_add]; congr 1; omega]
        rw [show 2 ^ t * c + 2 ^ t * 2 ^ (64 - t) * natVal r
            = 2 ^ t * (c + 2 ^ (64 - t) * natVal r) from by ring,
          Nat.mul_div_cancel_left _ (Nat.pos_pow_of_pos t (by norm_num))]
      refine ⟨?_, ?_, ?_⟩
      · rw [natVal_cons, hc]
        refine Nat.dvd_add ⟨c, rfl⟩ (Dvd.dvd.mul_right ?_ _)
        exact Nat.pow_dvd_pow 2 (by omega)
      · rw [hq]
        have hcodd : c % 2 = 1 := by
          rw [hc, Nat.mul_div_cancel_left _ (Nat.pos_pow_of_pos t (by norm_num))] at h2
          exact h2
        have heven : 2 ^ (64 - t) * natVal r % 2 = 0 := by
          rw [show (64 : Nat) - t = 1 + (64 - t - 1) from by omega, Nat.pow_add,
            Nat.pow_one, Nat.mul_assoc]
          exact Nat.mul_mod_right 2 _
        omega
      · rw [List.length_cons]
        have : 1 ≤ r.length + 1 := by omega
        calc t < 64 := h3
        _ ≤ 64 * (r.length + 1) := by omega

theorem is_zero_iff : ∀ (l : List Nat), is_zero l = true ↔ natVal l = 0 := by
  intro l
  induction l with
  | nil => simp [is_zero, natVal]
  | cons d r ih =>
    by_cases hd : d = 0
    · subst hd
      rw [is_zero, if_neg (by simp), natVal_cons, ih]
      omega
    · rw [is_zero, if_pos (by simpa using hd), natVal_cons]
      constructor
      · intro h; exact absurd h (by simp)
      · intro h; omega

theorem is_zero_replicate (n : Nat) : is_zero (List.replicate n 0) = true :=
  (is_zero_iff _).mpr (natVal_replicate_zero n)

theorem eq_replicate_of_is_zero : ∀ (l : List Nat), is_zero l = true →
    l = List.replicate l.length 0 := by
  intro l
  induction l with
  | nil => intro _; rfl
  | cons d r ih =>
    intro h
    rw [is_zero] at h
    by_cases hd : d = 0
    · rw [if_neg (by simpa using hd)] at h
      rw [List.length_cons, List.replicate_succ, hd, ih h]
      simp
    · rw [if_pos (by simpa using hd)] at h
      exact absurd h (by simp)

theorem shrLoop_spec {s : Nat} (hs1 : 0 < s) (hs2 : s < 64) :
    ∀ (y : List Nat), valid y →
      (shrLoop s y).1.length = y.length ∧
      valid (shrLoop s y).1 ∧
      natVal (shrLoop s y).1 = natVal y / 2 ^ s ∧
      (shrLoop s y).2 = y.headD 0 % 2 ^ s * 2 ^ (64 - s) := by
  intro y
  induction y with
  | nil =>
    intro _
    refine ⟨rfl, fun d hd => by simp [shrLoop] at hd, ?_, ?_⟩
    · simp [shrLoop, natVal]
    · simp [shrLoop]
  | cons d r ih =>
    intro hv
    rcases valid_cons.mp hv with ⟨hd, hr⟩
    obtain ⟨ihlen, ihval, iheq, ihbor⟩ := ih hr
    have hpow : (2 : Nat) ^ 64 = 2 ^ s * 2 ^ (64 - s) := by
      rw [← Nat.pow_add]; congr 1; omega
    have hhead : r.headD 0 % 2 ^ s = natVal r % 2 ^ s := by
      cases r with
      | nil => simp [natVal]
      | cons e t =>
        rcases valid_cons.mp hr with ⟨he, _⟩
        rw [List.headD_cons, natVal_cons, hpow, Nat.mul_assoc,
          Nat.add_mul_mod_self_left]
    have hds : d >>> s = d / 2 ^ s := Nat.shiftRight_eq_div_pow d s
    have hdslt : d / 2 ^ s < 2 ^ (64 - s) := by
      rw [Nat.div_lt_iff_lt_mul (Nat.pos_pow_of_pos _ (by norm_num)),
        ← Nat.pow_add, show (64 : Nat) - s + s = 64 from by omega]
      exact hd
    have hborm : (shrLoop s r).2 % 2 ^ (64 - s) = 0 := by
      rw [ihbor]; exact Nat.mul_mod_left _ _
    have hor : d >>> s ||| (shrLoop s r).2
        = (shrLoop s r).2 + d / 2 ^ s := by
      rw [Nat.lor_comm, hds]
      exact lor_eq_add hdslt hborm
    have hheadval : (shrLoop s r).2 = natVal r % 2 ^ s * 2 ^ (64 - s) := by
      rw [ihbor, hhead]
    have hcons : shrLoop s (d :: r)
        = ((d >>> s ||| (shrLoop s r).2) :: (shrLoop s r).1,
           (d <<< (64 - s)) % 2 ^ 64) := rfl
    refine ⟨?_, ?_, ?_, ?_⟩
    · rw [hcons]; simpa using ihlen
    · rw [hcons, valid_cons]
      refine ⟨?_, ihval⟩
      rw [hor, hheadval]
      have h1 : natVal r % 2 ^ s ≤ 2 ^ s - 1 := by
        have hlt : natVal r % 2 ^ s < 2 ^ s :=
          Nat.mod_lt _ (Nat.pos_pow_of_pos s (by norm_num))
        omega
      have hBpos : (1 : Nat) ≤ 2 ^ (64 - s) := Nat.pos_pow_of_pos _ (by norm_num)
      have hAB : 2 ^ (64 - s) ≤ 2 ^ s * 2 ^ (64 - s) :=
        Nat.le_mul_of_pos_left _ (Nat.pos_pow_of_pos s (by norm_num))
      calc natVal r % 2 ^ s * 2 ^ (64 - s) + d / 2 ^ s
          ≤ (2 ^ s - 1) * 2 ^ (64 - s) + (2 ^ (64 - s) - 1) :=
            Nat.add_le_add (Nat.mul_le_mul_right _ h1) (by omega)
      _ = 2 ^ s * 2 ^ (64 - s) - 1 := by
            rw [Nat.sub_mul, Nat.one_mul]
            omega
      _ < 2 ^ 64 := by
            rw [← hpow]
            omega
    · rw [hcons, natVal_cons, hor, hheadval, iheq, natVal_cons]
      have hmd : natVal r % 2 ^ s + 2 ^ s * (natVal r / 2 ^ s) = natVal r :=
        Nat.mod_add_div _ _
      calc natVal r % 2 ^ s * 2 ^ (64 - s) + d / 2 ^ s
            + 2 ^ 64 * (natVal r / 2 ^ s)
          = d / 2 ^ s + 2 ^ (64 - s)
              * (natVal r % 2 ^ s + 2 ^ s * (natVal r / 2 ^ s)) := by
            rw [hpow]; ring
      _ = d / 2 ^ s + 2 ^ (64 - s) * natVal r := by rw [hmd]
      _ = (d + 2 ^ s * (2 ^ (64 - s) * natVal r)) / 2 ^ s := by
            rw [Nat.add_mul_div_left _ _ (Nat.pos_pow_of_pos s (by norm_num))]
      _ = (d + 2 ^ 64 * natVal r) / 2 ^ s := by
            rw [hpow, Nat.mul_assoc]
    · rw [hcons, List.headD_cons,
        shl_digit_mod d (by omega : 64 - s ≤ 64),
        show 64 - (64 - s) = s from by omega]

theorem append_zeros_spec {z : List Nat} (n : Nat) (hvz : valid z) :
    (z ++ List.replicate n 0).length = z.length + n ∧
    valid (z ++ List.replicate n 0) ∧
    natVal (z ++ List.replicate n 0) = natVal z := by
  refine ⟨by simp, valid_append.mpr ⟨hvz, valid_replicate (by norm_num) n⟩, ?_⟩
  rw [natVal_append, natVal_replicate_zero]
  simp

theorem uint_unchecked_shr_spec {u : List Nat} (hv : valid u) (rhs : Nat) :
    (uint.unchecked_shr u rhs).length = u.length ∧
    valid (uint.unchecked_shr u rhs) ∧
    natVal (uint.unchecked_shr u rhs) = natVal u / 2 ^ rhs := by
  by_cases h0 : rhs = 0
  · subst h0
    unfold uint.unchecked_shr
    rw [if_pos rfl]
    exact ⟨rfl, hv, by simp⟩
  · have hds : rhs >>> 6 = rhs / 64 := (shift_decompose rhs).1
    have hbs : rhs &&& 63 = rhs % 64 := (shift_decompose rhs).2
    have hdroplen : (u.drop (rhs >>> 6)).length = u.length - rhs >>> 6 :=
      List.length_drop _ _
    have hvd : valid (u.drop (rhs >>> 6)) := valid_drop hv _
    have hdropval : natVal (u.drop (rhs >>> 6))
        = natVal u / 2 ^ (64 * (rhs >>> 6)) := by
      rcases Nat.le_total (rhs >>> 6) u.length with hle | hge
      · exact natVal_drop hv _ hle
      · rw [List.drop_eq_nil_of_le hge, natVal_nil]
        symm
        apply Nat.div_eq_of_lt
        calc natVal u < 2 ^ (64 * u.length) := natVal_lt hv
        _ ≤ 2 ^ (64 * (rhs >>> 6)) :=
          Nat.pow_le_pow_right (by norm_num) (by omega)
    simp only [uint.unchecked_shr, if_neg h0]
    by_cases hsz : rhs &&& 63 ≠ 0
    · rw [if_pos hsz]
      have hs1 : 0 < rhs &&& 63 := by omega
      have hs2 : rhs &&& 63 < 64 := by rw [hbs]; omega
      obtain ⟨hl, hvz, hval, _⟩ :=
        shrLoop_spec hs1 hs2 (u.drop (rhs >>> 6)) hvd
      obtain ⟨al, av, an⟩ := append_zeros_spec
        (u.length - (shrLoop (rhs &&& 63) (u.drop (rhs >>> 6))).1.length) hvz
      refine ⟨?_, av, ?_⟩
      · rw [al, hl, hdroplen]
        omega
      · rw [an, hval, hdropval, Nat.div_div_eq_div_mul, ← Nat.pow_add]
        congr 2
        rw [hds, hbs]
        omega
    · rw [if_neg hsz]
      obtain ⟨al, av, an⟩ := append_zeros_spec
        (u.length - (u.drop (rhs >>> 6)).length) hvd
      refine ⟨?_, av, ?_⟩
      · rw [al, hdroplen]
        omega
      · rw [an, hdropval]
        congr 2
        rw [hds]
        omega

theorem shlLoopU_eq_shlLoop : ∀ (y : List Nat) (s c i li : Nat),
    (uint.shlLoopU s c i li y).1 = (shlLoop s c y).1 ∧
    (uint.shlLoopU s c i li y).2.1 = (shlLoop s c y).2 := by
  intro y
  induction y with
  | nil => intro s c i li; exact ⟨rfl, rfl⟩
  | cons d r ih =>
    intro s c i li
    obtain ⟨h1, h2⟩ := ih s (d >>> (64 - s)) (i + 1)
      (if (d <<< s) % 2 ^ 64 ||| c ≠ 0 then i else li)
    simp only [uint.shlLoopU, shlLoop]
    exact ⟨by rw [h1], by rw [h2]⟩

theorem uint_unchecked_shl_spec {u : List Nat} {rhs : Nat} (hv : valid u)
    (hr : rhs < 64 * u.length)
    (hnov : natVal u * 2 ^ rhs < 2 ^ (64 * u.length)) :
    (uint.unchecked_shl u rhs).length = u.length ∧
    valid (uint.unchecked_shl u rhs) ∧
    natVal (uint.unchecked_shl u rhs) = natVal u * 2 ^ rhs := by
  by_cases h0 : rhs = 0
  · subst h0
    unfold uint.unchecked_shl
    rw [if_pos rfl]
    exact ⟨rfl, hv, by simp⟩
  · have hds : rhs >>> 6 = rhs / 64 := (shift_decompose rhs).1
    have hbs : rhs &&& 63 = rhs % 64 := (shift_decompose rhs).2
    have hdslt : rhs >>> 6 < u.length := by rw [hds]; omega
    have htlen : (u.take (u.length - rhs >>> 6)).length
        = u.length - rhs >>> 6 := by
      rw [List.length_take, Nat.min_eq_left (by omega)]
    have hvt : valid (u.take (u.length - rhs >>> 6)) := valid_take hv _
    have hvu : natVal u < 2 ^ (64 * (u.length - rhs >>> 6)) := by
      have h1 : natVal u * 2 ^ (64 * (rhs >>> 6)) ≤ natVal u * 2 ^ rhs :=
        Nat.mul_le_mul_left _
          (Nat.pow_le_pow_right (by norm_num) (by rw [hds]; omega))
      have h2 : natVal u * 2 ^ (64 * (rhs >>> 6))
          < 2 ^ (64 * (u.length - rhs >>> 6)) * 2 ^ (64 * (rhs >>> 6)) := by
        rw [← Nat.pow_add,
          show 64 * (u.length - rhs >>> 6) + 64 * (rhs >>> 6)
            = 64 * u.length from by omega]
        omega
      exact Nat.lt_of_mul_lt_mul_right h2
    have htval : natVal (u.take (u.length - rhs >>> 6)) = natVal u := by
      rw [natVal_take hv _ (by omega), Nat.mod_eq_of_lt hvu]
    simp only [uint.unchecked_shl, if_neg h0]
    by_cases hsz : rhs &&& 63 ≠ 0
    · rw [if_pos hsz]
      obtain ⟨he1, he2⟩ := shlLoopU_eq_shlLoop
        (u.take (u.length - rhs >>> 6)) (rhs &&& 63) 0 (rhs >>> 6) (rhs >>> 6)
      have hs2 : rhs &&& 63 < 64 := by rw [hbs]; omega
      obtain ⟨hl, hvz, hval, hcar⟩ := shlLoop_zero_carry hs2 _ hvt
      have hcz : natVal (u.take (u.length - rhs >>> 6)) * 2 ^ (rhs &&& 63)
          < 2 ^ (64 * (u.take (u.length - rhs >>> 6)).length) := by
        rw [htval, htlen]
        have h2 : natVal u * 2 ^ (rhs &&& 63) * 2 ^ (64 * (rhs >>> 6))
            < 2 ^ (64 * (u.length - rhs >>> 6)) * 2 ^ (64 * (rhs >>> 6)) := by
          rw [Nat.mul_assoc, ← Nat.pow_add, ← Nat.pow_add,
            show (rhs &&& 63) + 64 * (rhs >>> 6) = rhs from by
              rw [hds, hbs]; omega,
            show 64 * (u.length - rhs >>> 6) + 64 * (rhs >>> 6)
              = 64 * u.length from by omega]
          exact hnov
        exact Nat.lt_of_mul_lt_mul_right h2
      have hc0 : (shlLoop (rhs &&& 63) 0 (u.take (u.length - rhs >>> 6))).2
          = 0 := by
        rw [hcar]
        exact Nat.div_eq_of_lt hcz
      rw [he2, hc0, if_neg (by simp), he1]
      refine ⟨?_, ?_, ?_⟩
      · rw [List.length_append, List.length_replicate, hl, htlen]
        omega
      · exact valid_append.mpr ⟨valid_replicate (by norm_num) _, hvz⟩
      · rw [natVal_append, natVal_replicate_zero, List.length_replicate,
          Nat.zero_add, hval, htval, Nat.mod_eq_of_lt (htval ▸ hcz),
          ← Nat.mul_assoc, Nat.mul_comm (2 ^ (64 * (rhs >>> 6))) (natVal u),
          Nat.mul_assoc, ← Nat.pow_add]
        congr 2
        rw [hds, hbs]
        omega
    · rw [if_neg hsz]
      refine ⟨?_, ?_, ?_⟩
      · rw [List.length_append, List.length_replicate, htlen]
        omega
      · exact valid_append.mpr ⟨valid_replicate (by norm_num) _, hvt⟩
      · rw [natVal_append, natVal_replicate_zero, List.length_replicate,
          Nat.zero_add, htval, Nat.mul_comm (2 ^ (64 * (rhs >>> 6))) (natVal u)]
        congr 2
        rw [hds]
        omega

theorem uint_wrapping_sub_spec {a b : List Nat} (hva : valid a)
    (hle : natVal b ≤ natVal a) :
    (uint.wrapping_sub a b).length = a.length ∧
    valid (uint.wrapping_sub a b) ∧
    natVal (uint.wrapping_sub a b) = natVal a - natVal b := by
  have hA : natVal a < 2 ^ (64 * a.length) := natVal_lt hva
  unfold uint.wrapping_sub
  refine ⟨length_fromNat _ _, valid_fromNat _ _, ?_⟩
  rw [natVal_fromNat (Nat.mod_lt _ (Nat.pos_pow_of_pos _ (by norm_num))),
    show natVal a + 2 ^ (64 * a.length) - natVal b
      = (natVal a - natVal b) + 2 ^ (64 * a.length) from by omega,
    Nat.add_mod_right, Nat.mod_eq_of_lt (by omega)]

/-! ### Arithmetic facts feeding the binary GCD -/

theorem gcd_odd_strip {x t m : Nat} (hx : x % 2 = 1) :
    Nat.gcd x (2 ^ t * m) = Nat.gcd x m := by
  have hcop : Nat.Coprime (2 ^ t) x :=
    Nat.Coprime.pow_left t (Nat.coprime_two_left.mpr (Nat.odd_iff.mpr hx))
  exact Nat.Coprime.gcd_mul_left_cancel_right m hcop

theorem gcd_two_pow_mul {i j u v : Nat} (hu : u % 2 = 1) (hv : v % 2 = 1) :
    Nat.gcd (2 ^ i * u) (2 ^ j * v) = 2 ^ min i j * Nat.gcd u v := by
  rcases Nat.le_total i j with hij | hji
  · rw [Nat.min_eq_left hij,
      show (2 : Nat) ^ j = 2 ^ i * 2 ^ (j - i) from by
        rw [← Nat.pow_add]; congr 1; omega,
      Nat.mul_assoc, Nat.gcd_mul_left, gcd_odd_strip hu]
  · rw [Nat.min_eq_right hji,
      show (2 : Nat) ^ i = 2 ^ j * 2 ^ (i - j) from by
        rw [← Nat.pow_add]; congr 1; omega,
      Nat.mul_assoc, Nat.gcd_mul_left, Nat.gcd_comm (2 ^ (i - j) * u) v,
      gcd_odd_strip hv, Nat.gcd_comm v u]

/-! ### The subtract-and-shift loop of `gcd` -/

theorem gcd_loop_succ_le (k f : Nat) (u v : List Nat)
    (h : natVal u ≤ natVal v) :
    uint.gcd_loop k (f + 1) u v
      = if is_zero (uint.wrapping_sub v u) = true then uint.unchecked_shl u k
        else uint.gcd_loop k f u
          (uint.unchecked_shr (uint.wrapping_sub v u)
            (trailing_zeros (uint.wrapping_sub v u))) := by
  have hc : uint.cmp u v ≠ Ordering.gt := by
    unfold uint.cmp
    rw [Ne, Nat.compare_eq_gt]
    omega
  cases hcmp : uint.cmp u v with
  | lt => simp only [uint.gcd_loop, hcmp]
  | eq => simp only [uint.gcd_loop, hcmp]
  | gt => exact absurd hcmp hc

theorem gcd_loop_succ_swap (k f : Nat) (u v : List Nat)
    (h : natVal v < natVal u) :
    uint.gcd_loop k (f + 1) u v = uint.gcd_loop k (f + 1) v u := by
  have hgt : uint.cmp u v = Ordering.gt := by
    unfold uint.cmp
    rw [Nat.compare_eq_gt]
    exact h
  have hlt : uint.cmp v u = Ordering.lt := by
    unfold uint.cmp
    rw [Nat.compare_eq_lt]
    exact h
  simp only [uint.gcd_loop]
  rw [hgt, hlt]

theorem gcd_loop_step {n k : Nat} (f : Nat)
    (ih : ∀ u v : List Nat, valid u → valid v → u.length = n → v.length = n →
      natVal u % 2 = 1 → natVal v % 2 = 1 →
      Nat.gcd (natVal u) (natVal v) * 2 ^ k < 2 ^ (64 * n) →
      natVal u + natVal v ≤ f →
      (uint.gcd_loop k f u v).length = n ∧ valid (uint.gcd_loop k f u v) ∧
      natVal (uint.gcd_loop k f u v) = Nat.gcd (natVal u) (natVal v) * 2 ^ k)
    (hk : k < 64 * n)
    (x y : List Nat) (hvx : valid x) (hvy : valid y)
    (hxl : x.length = n) (hyl : y.length = n)
    (hxo : natVal x % 2 = 1) (hyo : natVal y % 2 = 1)
    (hxy : natVal x ≤ natVal y)
    (hg : Nat.gcd (natVal x) (natVal y) * 2 ^ k < 2 ^ (64 * n))
    (hfuel : natVal x + natVal y ≤ f + 1) :
    (uint.gcd_loop k (f + 1) x y).length = n ∧
    valid (uint.gcd_loop k (f + 1) x y) ∧
    natVal (uint.gcd_loop k (f + 1) x y)
      = Nat.gcd (natVal x) (natVal y) * 2 ^ k := by
  rw [gcd_loop_succ_le k f x y hxy]
  obtain ⟨hwl, hwv, hwval⟩ := uint_wrapping_sub_spec hvy hxy
  by_cases hz : is_zero (uint.wrapping_sub y x) = true
  · rw [if_pos hz]
    have hyx : natVal y = natVal x := by
      have h0 := (is_zero_iff _).mp hz
      rw [hwval] at h0
      omega
    have hb : natVal x * 2 ^ k < 2 ^ (64 * x.length) := by
      rw [hxl]
      calc natVal x * 2 ^ k
          = Nat.gcd (natVal x) (natVal y) * 2 ^ k := by
            rw [hyx, Nat.gcd_self]
      _ < 2 ^ (64 * n) := hg
    obtain ⟨sl, sv, sval⟩ :=
      uint_unchecked_shl_spec hvx (by rw [hxl]; exact hk) hb
    refine ⟨by rw [sl, hxl], sv, ?_⟩
    rw [sval, hyx, Nat.gcd_self]
  · rw [if_neg hz]
    have hwnz : natVal (uint.wrapping_sub y x) ≠ 0 := fun h =>
      hz ((is_zero_iff _).mpr h)
    obtain ⟨ht1, ht2, ht3⟩ := trailing_zeros_spec _ hwv hwnz
    obtain ⟨hsl, hsv, hsval⟩ :=
      uint_unchecked_shr_spec hwv (trailing_zeros (uint.wrapping_sub y x))
    have hstrip : Nat.gcd (natVal x)
        (natVal (uint.wrapping_sub y x)
          / 2 ^ trailing_zeros (uint.wrapping_sub y x))
        = Nat.gcd (natVal x) (natVal y) := by
      have hery : natVal (uint.wrapping_sub y x)
          = 2 ^ trailing_zeros (uint.wrapping_sub y x)
            * (natVal (uint.wrapping_sub y x)
              / 2 ^ trailing_zeros (uint.wrapping_sub y x)) :=
        (Nat.mul_div_cancel' ht1).symm
      calc Nat.gcd (natVal x)
            (natVal (uint.wrapping_sub y x)
              / 2 ^ trailing_zeros (uint.wrapping_sub y x))
          = Nat.gcd (natVal x)
            (2 ^ trailing_zeros (uint.wrapping_sub y x)
              * (natVal (uint.wrapping_sub y x)
                / 2 ^ trailing_zeros (uint.wrapping_sub y x))) := by
            rw [gcd_odd_strip hxo]
      _ = Nat.gcd (natVal x) (natVal (uint.wrapping_sub y x)) := by
            rw [← hery]
      _ = Nat.gcd (natVal x) (natVal y) := by
            rw [hwval]
            exact Nat.gcd_sub_self_right hxy
    have hw'o : natVal (uint.unchecked_shr (uint.wrapping_sub y x)
        (trailing_zeros (uint.wrapping_sub y x))) % 2 = 1 := by
      rw [hsval]
      exact ht2
    have hw'len : (uint.unchecked_shr (uint.wrapping_sub y x)
        (trailing_zeros (uint.wrapping_sub y x))).length = n := by
      rw [hsl, hwl, hyl]
    have hfuel' : natVal x + natVal (uint.unchecked_shr (uint.wrapping_sub y x)
        (trailing_zeros (uint.wrapping_sub y x))) ≤ f := by
      have hle : natVal (uint.wrapping_sub y x)
          / 2 ^ trailing_zeros (uint.wrapping_sub y x)
          ≤ natVal (uint.wrapping_sub y x) := Nat.div_le_self _ _
      rw [hsval, hwval]
      rw [hwval] at hle
      omega
    have hg' : Nat.gcd (natVal x)
        (natVal (uint.unchecked_shr (uint.wrapping_sub y x)
          (trailing_zeros (uint.wrapping_sub y x)))) * 2 ^ k
        < 2 ^ (64 * n) := by
      rw [hsval, hstrip]
      exact hg
    obtain ⟨a1, a2, a3⟩ := ih x _ hvx hsv hxl hw'len hxo hw'o hg' hfuel'
    refine ⟨a1, a2, ?_⟩
    rw [a3, hsval, hstrip]

theorem gcd_loop_spec {n k : Nat} (hk : k < 64 * n) :
    ∀ (fuel : Nat) (u v : List Nat), valid u → valid v →
      u.length = n → v.length = n →
      natVal u % 2 = 1 → natVal v % 2 = 1 →
      Nat.gcd (natVal u) (natVal v) * 2 ^ k < 2 ^ (64 * n) →
      natVal u + natVal v ≤ fuel →
      (uint.gcd_loop k fuel u v).length = n ∧
      valid (uint.gcd_loop k fuel u v) ∧
      natVal (uint.gcd_loop k fuel u v)
        = Nat.gcd (natVal u) (natVal v) * 2 ^ k := by
  intro fuel
  induction fuel with
  | zero =>
    intro u v _ _ _ _ huo hvo _ hfuel
    omega
  | succ f ih =>
    intro u v hvu hvv hul hvl huo hvo hg hfuel
    rcases Nat.le_total (natVal u) (natVal v) with hle | hge
    · exact gcd_loop_step f ih hk u v hvu hvv hul hvl huo hvo hle hg hfuel
    · rcases Nat.eq_or_lt_of_le hge with heq | hlt
      · exact gcd_loop_step f ih hk u v hvu hvv hul hvl huo hvo (by omega)
          hg hfuel
      · rw [gcd_loop_succ_swap k f u v hlt]
        obtain ⟨a1, a2, a3⟩ := gcd_loop_step f ih hk v u hvv hvu hvl hul
          hvo huo (Nat.le_of_lt hlt)
          (by rw [Nat.gcd_comm]; exact hg) (by omega)
        exact ⟨a1, a2, by rw [a3, Nat.gcd_comm]⟩

theorem is_zero_ZERO (n : Nat) : is_zero (buint.ZERO n) = true :=
  is_zero_replicate n

theorem gcd_natVal {a b : List Nat} (hva : valid a) (hvb : valid b)
    (hlen : b.length = a.length) :
    (uint.gcd a b).length = a.length ∧
    valid (uint.gcd a b) ∧
    natVal (uint.gcd a b) = Nat.gcd (natVal a) (natVal b) := by
  by_cases hza : is_zero a = true
  · unfold uint.gcd
    rw [if_pos hza, (is_zero_iff a).mp hza, Nat.gcd_zero_left]
    exact ⟨hlen, hvb, rfl⟩
  · by_cases hzb : is_zero b = true
    · unfold uint.gcd
      rw [if_neg hza, if_pos hzb, (is_zero_iff b).mp hzb, Nat.gcd_zero_right]
      exact ⟨rfl, hva, rfl⟩
    · have hA : natVal a ≠ 0 := fun h => hza ((is_zero_iff a).mpr h)
      have hB : natVal b ≠ 0 := fun h => hzb ((is_zero_iff b).mpr h)
      obtain ⟨hta1, hta2, hta3⟩ := trailing_zeros_spec a hva hA
      obtain ⟨htb1, htb2, htb3⟩ := trailing_zeros_spec b hvb hB
      obtain ⟨hul, huv, huval⟩ :=
        uint_unchecked_shr_spec hva (trailing_zeros a)
      obtain ⟨hvl, hvv, hvval⟩ :=
        uint_unchecked_shr_spec hvb (trailing_zeros b)
      have hucancel : 2 ^ trailing_zeros a
          * natVal (uint.unchecked_shr a (trailing_zeros a)) = natVal a := by
        rw [huval]
        exact Nat.mul_div_cancel' hta1
      have hvcancel : 2 ^ trailing_zeros b
          * natVal (uint.unchecked_shr b (trailing_zeros b)) = natVal b := by
        rw [hvval]
        exact Nat.mul_div_cancel' htb1
      have huo : natVal (uint.unchecked_shr a (trailing_zeros a)) % 2 = 1 := by
        rw [huval]
        exact hta2
      have hvo : natVal (uint.unchecked_shr b (trailing_zeros b)) % 2 = 1 := by
        rw [hvval]
        exact htb2
      have hk : min (trailing_zeros a) (trailing_zeros b) < 64 * a.length := by
        have := Nat.min_le_left (trailing_zeros a) (trailing_zeros b)
        omega
      have hg : Nat.gcd (natVal (uint.unchecked_shr a (trailing_zeros a)))
          (natVal (uint.unchecked_shr b (trailing_zeros b)))
          * 2 ^ min (trailing_zeros a) (trailing_zeros b)
          < 2 ^ (64 * a.length) := by
        have hupos : 0 < natVal (uint.unchecked_shr a (trailing_zeros a)) := by
          omega
        calc Nat.gcd (natVal (uint.unchecked_shr a (trailing_zeros a)))
              (natVal (uint.unchecked_shr b (trailing_zeros b)))
              * 2 ^ min (trailing_zeros a) (trailing_zeros b)
            ≤ natVal (uint.unchecked_shr a (trailing_zeros a))
              * 2 ^ min (trailing_zeros a) (trailing_zeros b) :=
              Nat.mul_le_mul_right _ (Nat.gcd_le_left _ hupos)
        _ ≤ natVal (uint.unchecked_shr a (trailing_zeros a))
              * 2 ^ trailing_zeros a :=
              Nat.mul_le_mul_left _
                (Nat.pow_le_pow_right (by norm_num)
                  (Nat.min_le_left _ _))
        _ = natVal a := by rw [Nat.mul_comm]; exact hucancel
        _ < 2 ^ (64 * a.length) := natVal_lt hva
      have hkmin : (if trailing_zeros a > trailing_zeros b
          then trailing_zeros b else trailing_zeros a)
          = min (trailing_zeros a) (trailing_zeros b) := by
        rcases Nat.le_total (trailing_zeros a) (trailing_zeros b) with h | h
        · rw [if_neg (by omega), Nat.min_eq_left h]
        · rcases Nat.lt_or_ge (trailing_zeros b) (trailing_zeros a) with h2 | h2
          · rw [if_pos h2, Nat.min_eq_right h]
          · rw [if_neg (by omega), Nat.min_eq_left (by omega)]
      obtain ⟨g1, g2, g3⟩ := gcd_loop_spec hk
        (natVal (uint.unchecked_shr a (trailing_zeros a))
          + natVal (uint.unchecked_shr b (trailing_zeros b)))
        (uint.unchecked_shr a (trailing_zeros a))
        (uint.unchecked_shr b (trailing_zeros b))
        huv hvv hul (by rw [hvl, hlen]) huo hvo hg (Nat.le_refl _)
      simp only [uint.gcd]
      rw [if_neg hza, if_neg hzb, hkmin]
      refine ⟨g1, g2, ?_⟩
      rw [g3, ← hucancel, ← hvcancel, gcd_two_pow_mul huo hvo,
        Nat.mul_comm]

/-- C6: for `BUint` values of a common width (`src/uint/mod.rs` `gcd`, with
`cmp` and `wrapping_sub` modelled from the spec), `gcd(a, ZERO) = a`,
`gcd(ZERO, b) = b`, `gcd(a, b) = gcd(b, a)`, and the value of `gcd(a, b)`
divides the values of both `a` and `b`. -/
theorem c6_gcd (a b : List Nat) (hva : valid a) (hvb : valid b)
    (hlen : b.length = a.length) :
    uint.gcd a (buint.ZERO a.length) = a ∧
    uint.gcd (buint.ZERO b.length) b = b ∧
    uint.gcd a b = uint.gcd b a ∧
    natVal (uint.gcd a b) ∣ natVal a ∧
    natVal (uint.gcd a b) ∣ natVal b := by
  have h1 : uint.gcd a (buint.ZERO a.length) = a := by
    by_cases hza : is_zero a = true
    · unfold uint.gcd
      rw [if_pos hza]
      rw [show buint.ZERO a.length = List.replicate a.length 0 from rfl]
      exact (eq_replicate_of_is_zero a hza).symm
    · unfold uint.gcd
      rw [if_neg hza, if_pos (is_zero_ZERO a.length)]
  have h2 : uint.gcd (buint.ZERO b.length) b = b := by
    unfold uint.gcd
    rw [if_pos (is_zero_ZERO b.length)]
  obtain ⟨l1, v1, n1⟩ := gcd_natVal hva hvb hlen
  obtain ⟨l2, v2, n2⟩ := gcd_natVal hvb hva hlen.symm
  have h3 : uint.gcd a b = uint.gcd b a :=
    natVal_inj v1 v2 (by rw [l1, l2, hlen])
      (by rw [n1, n2, Nat.gcd_comm])
  exact ⟨h1, h2, h3,
    by rw [n1]; exact Nat.gcd_dvd_left _ _,
    by rw [n1]; exact Nat.gcd_dvd_right _ _⟩

/-- C6 witness at `a = 12`, `b = 18` (one digit each). -/
theorem c6_gcd_witness :
    (valid [12] ∧ valid [18] ∧
      ([18] : List Nat).length = ([12] : List Nat).length) ∧
    (uint.gcd [12] (buint.ZERO ([12] : List Nat).length) = [12] ∧
     uint.gcd (buint.ZERO ([18] : List Nat).length) [18] = [18] ∧
     uint.gcd [12] [18] = uint.gcd [18] [12] ∧
     natVal (uint.gcd [12] [18]) ∣ natVal [12] ∧
     natVal (uint.gcd [12] [18]) ∣ natVal [18]) :=
  ⟨⟨by decide, by decide, rfl⟩,
   c6_gcd [12] [18] (by decide) (by decide) rfl⟩
